import Mathlib

/-!
Verification development for the delimitpy model-generation module
(`generate_models.py`).  The Python classes `ModelBuilder`, `ModelWriter`
and `ModelReader` are shallowly embedded below: demographies become an
explicit data type, numpy's seeded generator becomes an oracle of unit
draws in `[0,1)` supplied as a function argument, numpy arrays become
lists of integers or rationals, and Python dictionaries become
association lists with insert-or-overwrite update.  Fallible code paths
(NameError / KeyError / IndexError raised by the source) are modelled
with `Except String`.
-/

set_option maxRecDepth 4000

namespace Delimitpy

/-- Nearest-integer rounding with ties to even, the behaviour of
`np.round(x, 0)` (banker's rounding). -/
def npRound (q : ℚ) : ℤ :=
  if q - ⌊q⌋ = 1/2 then (if 2 ∣ ⌊q⌋ then ⌊q⌋ else ⌊q⌋ + 1) else ⌊q + 1/2⌋

/-- One draw of `rng.uniform(low, high)`: `low + u * (high - low)` where
`u` is the generator's unit draw in `[0, 1)`. -/
def uniformDraw (lo hi u : ℚ) : ℚ := lo + u * (hi - lo)

/-- The source's `np.round(x, 10)`: rounding to ten decimal places. -/
def round10 (q : ℚ) : ℚ := (npRound (q * 10^10) : ℚ) / 10^10

/-- First-match lookup in an association list (Python `dict` access). -/
def lookupA {κ α : Type} [DecidableEq κ] (m : List (κ × α)) (k : κ) : Option α :=
  (m.find? (fun x => x.1 = k)).map (·.2)

/-- Python `dict` assignment: overwrite the entry if the key is present,
otherwise append it (preserving insertion order). -/
def updateA {κ α : Type} [DecidableEq κ] (m : List (κ × α)) (k : κ) (v : α) :
    List (κ × α) :=
  if (m.find? (fun x => x.1 = k)).isSome
  then m.map (fun x => if x.1 = k then (k, v) else x)
  else m ++ [(k, v)]

/-- The `try: d[k].append(v) / except: d[k] = [v]` idiom of the source. -/
def appendA {κ : Type} [DecidableEq κ] (m : List (κ × List ℚ)) (k : κ) (v : ℚ) :
    List (κ × List ℚ) :=
  match lookupA m k with
  | some l => updateA m k (l ++ [v])
  | none => updateA m k [v]

/-! ### Species tree

The dendropy species tree is embedded as a rooted binary tree of labelled
nodes; leaf labels stand for the taxon labels of leaf nodes. -/

inductive STree where
  | leaf (name : String)
  | node (name : String) (left : STree) (right : STree)
deriving DecidableEq

/-- The label of a node (for a leaf, its taxon label). -/
def STree.name : STree → String
  | .leaf n => n
  | .node n _ _ => n

/-- dendropy `internal_nodes()`: internal node labels in preorder. -/
def STree.preorderInternalNames : STree → List String
  | .leaf _ => []
  | .node n l r => n :: (l.preorderInternalNames ++ r.preorderInternalNames)

/-- Internal node labels of a subtree in postorder (the subtree's own root
included), matching `postorder_internal_node_iter` on that node. -/
def STree.postorderInternalNames : STree → List String
  | .leaf _ => []
  | .node n l r => l.postorderInternalNames ++ r.postorderInternalNames ++ [n]

/-- Locate the subtree whose root carries the given label. -/
def STree.findNode : STree → String → Option STree
  | .leaf n, k => if n = k then some (.leaf n) else none
  | .node n l r, k =>
      if n = k then some (.node n l r)
      else match l.findNode k with
        | some s => some s
        | none => r.findNode k

/-- Source `ModelBuilder._get_derived_populations`: the labels of the two children
of an internal node. -/
def STree.derivedPopulations : STree → Option (String × String)
  | .node _ l r => some (l.name, r.name)
  | .leaf _ => none

/-- Python `itertools.combinations(l, n)` in its enumeration order, keeping the
relative order of `l` inside each combination. -/
def combosLen {α : Type} : ℕ → List α → List (List α)
  | 0, _ => [[]]
  | _ + 1, [] => []
  | n + 1, x :: xs => (combosLen n xs).map (x :: ·) ++ combosLen (n + 1) xs

/-- All combinations of internal nodes of sizes `1 .. k` (`k` the number of
internal nodes), as built in `_create_divergence_demographies`. -/
def allCollapseCombos (t : STree) : List (List String) :=
  (List.range t.preorderInternalNames.length).flatMap
    (fun r => combosLen (r + 1) t.preorderInternalNames)

/-- The source's `[child for child in node.postorder_internal_node_iter() if child not in combo]`
for the node labelled `n`. -/
def internalDescSurvivors (t : STree) (n : String) (combo : List String) :
    List String :=
  match t.findNode n with
  | some sub => sub.postorderInternalNames.filter (· ∉ combo)
  | none => []

/-- Source `ModelBuilder._remove_conflicting`.  The source computes `child_nodes`
inside `for node in combo` but tests `len(child_nodes) == 0` after that
loop, so only the last node of each combo is inspected; the fold below
reproduces that (its `[]` start value is only reached for an empty combo,
which the call site never passes). -/
def removeConflicting (t : STree) (combos : List (List String)) :
    List (List String) :=
  combos.filter fun combo =>
    (combo.foldl (fun _ n => internalDescSurvivors t n combo) []).isEmpty

/-- The collapse combinations `_create_divergence_demographies` iterates
over: the filtered non-empty combinations, then the empty one. -/
def keptCombos (t : STree) : List (List String) :=
  removeConflicting t (allCollapseCombos t) ++ [[]]

/-- The internal-node labels strictly below the node labelled `n`. -/
def strictInternalDesc (t : STree) (n : String) : List String :=
  match t.findNode n with
  | some (.node _ l r) => l.postorderInternalNames ++ r.postorderInternalNames
  | _ => []

/-- The intended contiguity invariant of the specification: a collapse
combination is valid iff every chosen node's internal descendants are all
chosen as well. -/
def ValidCombo (t : STree) (combo : List String) : Prop :=
  ∀ n ∈ combo, ∀ d ∈ strictInternalDesc t n, d ∈ combo

instance (t : STree) (combo : List String) : Decidable (ValidCombo t combo) :=
  inferInstanceAs (Decidable (∀ n ∈ combo, ∀ d ∈ strictInternalDesc t n, d ∈ combo))

/-- Four-leaf caterpillar tree `(((A,B)X,C)Y,D)R`. -/
def caterpillar4 : STree :=
  .node "R" (.node "Y" (.node "X" (.leaf "A") (.leaf "B")) (.leaf "C")) (.leaf "D")

/-! ### Demographies

msprime `Demography` objects are embedded as a population list, an event
list, and the migration matrix (kept sparsely, as the list of entries set
to a non-zero rate, indexed by population indices as in msprime).  Event
times live in `WithTop ℚ` so that `np.inf` (which the secondary-contact
stop-time computation can produce) is representable as `⊤`. -/

structure Population where
  name : String
  initialSize : ℚ
deriving DecidableEq

/-- msprime demographic events.  `split` is `add_population_split`
(attribute dispatch `hasattr(e, 'ancestral')` in the source selects this
constructor); the two migration-rate-change constructors both carry a
`rate` attribute (`hasattr(e, 'rate')`), and only the symmetric one has
`populations`. -/
inductive DemoEvent where
  | split (time : WithTop ℚ) (derived1 derived2 : String) (ancestral : String)
  | migRateChange (time : WithTop ℚ) (source dest : String) (rate : ℚ)
  | symMigRateChange (time : WithTop ℚ) (pop1 pop2 : String) (rate : ℚ)
deriving DecidableEq

def DemoEvent.time : DemoEvent → WithTop ℚ
  | .split t _ _ _ => t
  | .migRateChange t _ _ _ => t
  | .symMigRateChange t _ _ _ => t

/-- The ancestral label of a split event (`hasattr(e, 'ancestral')`). -/
def DemoEvent.ancestral? : DemoEvent → Option String
  | .split _ _ _ a => some a
  | _ => none

/-- Source and destination of a migration-rate-change event: `populations`
for symmetric events, `(source, dest)` for asymmetric ones.  The source
dispatches on the symmetric flag in the configuration, which always agrees
with the constructor that built the event. -/
def DemoEvent.daughters? : DemoEvent → Option (String × String)
  | .symMigRateChange _ p1 p2 _ => some (p1, p2)
  | .migRateChange _ s d _ => some (s, d)
  | _ => none

structure Demography where
  populations : List Population
  events : List DemoEvent
  migrationMatrix : List ((ℕ × ℕ) × ℚ)
deriving DecidableEq

/-- msprime resolves population names to indices in the population list. -/
def Demography.popIndex (d : Demography) (n : String) : ℕ :=
  d.populations.findIdx (fun p => p.name = n)

/-- msprime `Demography.sort_events()`: a stable sort of the event list by time
(Python's `list.sort` is stable; `List.insertionSort` with a total `≤` is
stable as well). -/
def sortEvents (l : List DemoEvent) : List DemoEvent :=
  List.insertionSort (fun a b => a.time ≤ b.time) l

/-- The demography `_create_divergence_demographies` builds for one
collapse combination: derived populations of every surviving internal node
(postorder), then the root population, all at the placeholder size 1000;
then one placeholder-time split event per surviving internal node. -/
def divergenceDemographyFor (t : STree) (combo : List String) : Demography :=
  let survivors := t.postorderInternalNames.filter (· ∉ combo)
  let pops := survivors.flatMap (fun n =>
    match t.findNode n with
    | some (.node _ l r) => [⟨l.name, 1000⟩, ⟨r.name, 1000⟩]
    | _ => [])
  let events := survivors.map (fun n =>
    match t.findNode n with
    | some (.node _ l r) => DemoEvent.split 1000 l.name r.name n
    | _ => DemoEvent.split 1000 "" "" n)
  ⟨pops ++ [⟨t.name, 1000⟩], events, []⟩

/-- Source `ModelBuilder._create_divergence_demographies`. -/
def createDivergenceDemographies (t : STree) : List Demography :=
  (keptCombos t).map (divergenceDemographyFor t)

/-! ### Migration candidate selection -/

/-- The migration matrix from the configuration, as rows of
`(row label, [(column label, cell)])` in `migration_df` iteration order. -/
abbrev MigDf : Type := List (String × List (String × String))

/-- The per-population eligibility check inside `_find_sc_to_include`: a
first pass over the events sets the flag when the population is a derived
population of a non-zero-time event, a second pass clears it when the
population is the ancestral label of a non-zero-time event. -/
def scIncludePop (events : List DemoEvent) (p : String) : Bool :=
  (events.any fun e =>
    match e with
    | .split t d1 d2 _ => decide ((p = d1 ∨ p = d2) ∧ t ≠ 0)
    | _ => false) &&
  !(events.any fun e =>
    match e with
    | .split t _ _ anc => decide (p = anc ∧ t ≠ 0)
    | _ => false)

/-- Source `ModelBuilder._find_sc_to_include`. -/
def findScToInclude (migDf : MigDf) (d : Demography) : List (String × String) :=
  migDf.flatMap fun row =>
    row.2.filterMap fun col =>
      if row.1 ≠ col.1 ∧ col.2 = "T" ∧
          scIncludePop d.events row.1 ∧ scIncludePop d.events col.1
      then some (row.1, col.1) else none

/-- Source `ModelBuilder._find_dwg_to_include`. -/
def findDwgToInclude (migDf : MigDf) (d : Demography) : List (String × String) :=
  migDf.flatMap fun row =>
    row.2.filterMap fun col =>
      if row.1 ≠ col.1 ∧ col.2 = "T" ∧
          d.events.any (fun e =>
            match e with
            | .split t d1 d2 _ =>
                decide (((row.1 = d1 ∨ row.1 = d2) ∧ (col.1 = d1 ∨ col.1 = d2)) ∧ t ≠ 0)
            | _ => false)
      then some (row.1, col.1) else none

/-- Python tuple comparison on string pairs. -/
def pairLE (a b : String × String) : Prop :=
  a.1 < b.1 ∨ (a.1 = b.1 ∧ a.2 ≤ b.2)

instance : DecidableRel pairLE := fun a b =>
  inferInstanceAs (Decidable (a.1 < b.1 ∨ (a.1 = b.1 ∧ a.2 ≤ b.2)))

/-- Python `sorted(set(l))` on a list of string pairs: the distinct
elements in ascending order. -/
def sortedDedupPairs (l : List (String × String)) : List (String × String) :=
  List.insertionSort pairLE l.dedup

/-- Python `sorted(pair)` rendered back as a tuple. -/
def sortPair (p : String × String) : String × String :=
  if p.1 ≤ p.2 then p else (p.2, p.1)

/-- The migration-event combinations: all combinations of eligible pairs of
sizes `1 .. min(max_migration_events, number of pairs)`. -/
def migCombos (maxMig : ℕ) (l : List (String × String)) :
    List (List (String × String)) :=
  (List.range (min maxMig l.length)).flatMap (fun r => combosLen (r + 1) l)

/-- Augmenting a divergence demography with one secondary-contact pair:
symmetric mode sets the matrix in both directions and adds a symmetric
rate change to 0 at the placeholder time 100; asymmetric mode sets one
matrix entry and adds an asymmetric rate change to 0. -/
def scPerPair (symmetric : Bool) (d : Demography) (pair : String × String) :
    Demography :=
  if symmetric then
    { d with
      migrationMatrix :=
        updateA (updateA d.migrationMatrix (d.popIndex pair.1, d.popIndex pair.2) (1/1000))
          (d.popIndex pair.2, d.popIndex pair.1) (1/1000),
      events := d.events ++ [DemoEvent.symMigRateChange 100 pair.1 pair.2 0] }
  else
    { d with
      migrationMatrix :=
        updateA d.migrationMatrix (d.popIndex pair.1, d.popIndex pair.2) (1/1000),
      events := d.events ++ [DemoEvent.migRateChange 100 pair.1 pair.2 0] }

/-- The loop body of `_create_sc_demographies`, threading the `to_include`
local through the iterations: the source only assigns `to_include` inside
`if self.config['symmetric']`, so in asymmetric mode the name is still
unbound when the combination enumeration reads it, and Python raises
`NameError`. -/
def scGo (symmetric : Bool) (maxMig : ℕ) (migDf : MigDf) :
    Option (List (String × String)) → List Demography → List Demography →
    Except String (List Demography)
  | _, acc, [] => .ok acc
  | ti, acc, item :: rest =>
    let base := sortedDedupPairs (findScToInclude migDf item)
    let ti' := if symmetric then some (sortedDedupPairs (base.map sortPair)) else ti
    match ti' with
    | none => .error "NameError: name to_include is not defined"
    | some toInclude =>
      let newDemos := (migCombos maxMig toInclude).map (fun combo =>
        let d := combo.foldl (scPerPair symmetric) item
        { d with events := sortEvents d.events })
      scGo symmetric maxMig migDf ti' (acc ++ newDemos) rest

/-- Source `ModelBuilder._create_sc_demographies`. -/
def createScDemographies (symmetric : Bool) (maxMig : ℕ) (migDf : MigDf)
    (divDemos : List Demography) : Except String (List Demography) :=
  scGo symmetric maxMig migDf none [] divDemos

/-- Three-leaf tree `((A,B)X,C)R` of the specification's scenario. -/
def tree3 : STree := .node "R" (.node "X" (.leaf "A") (.leaf "B")) (.leaf "C")

/-- A migration matrix over `A, B, C` allowing migration between `A` and
`B` only. -/
def migDf3 : MigDf :=
  [ ("A", [("A", "F"), ("B", "T"), ("C", "F")]),
    ("B", [("A", "T"), ("B", "F"), ("C", "F")]),
    ("C", [("A", "F"), ("B", "F"), ("C", "F")]) ]

/-! ### Parameter sampling

The seeded numpy generator is abstracted as oracles of unit draws in
`[0,1)`, keyed by the name (or index pair) the drawn vector is stored
under and by the replicate index.  All rounded draws are kept as the
integers they are. -/

/-- Source `ModelBuilder._draw_population_sizes`: per population, `replicates`
uniform draws from its size prior, rounded; also the population-name →
index map. -/
def drawPopulationSizes (reps : ℕ) (uS : String → ℕ → ℚ)
    (popPriors : String → ℤ × ℤ) (model : Demography) :
    List (String × List ℤ) × List (String × ℕ) :=
  (model.populations.map (fun p =>
      (p.name, (List.range reps).map fun i =>
        npRound (uniformDraw ((popPriors p.name).1 : ℚ) ((popPriors p.name).2 : ℚ)
          (uS p.name i)))),
   model.populations.enum.map (fun x => (x.2.name, x.1)))

/-- The ancestral labels of the split events, in event order (the order
`_draw_divergence_times` iterates in). -/
def ancNames (events : List DemoEvent) : List String :=
  events.filterMap DemoEvent.ancestral?

/-- Python `set(all_populations) - set(ancestral)` (the set has no specified
order; only the key set and the all-zero values matter downstream). -/
def nonAncNames (pops : List String) (events : List DemoEvent) : List String :=
  pops.filter (· ∉ ancNames events)

/-- One iteration of the event loop of `_draw_divergence_times`: a
non-zero-time split draws per replicate from
`[max(derived₁, derived₂, prior lo), prior hi]` and rounds, a zero-time
split is pinned to zero.  A missing derived key would be a Python
`KeyError`; the `getD []` then yields an empty draw list instead. -/
def divTimeStep (reps : ℕ) (u : String → ℕ → ℚ) (divPriors : String → ℤ × ℤ)
    (acc : List (String × List ℤ)) : DemoEvent → List (String × List ℤ)
  | .split t d1 d2 anc =>
    if t ≠ 0 then
      let l1 := (lookupA acc d1).getD []
      let l2 := (lookupA acc d2).getD []
      let lo : ℤ := (divPriors anc).1
      let hi : ℤ := (divPriors anc).2
      let minValues := (List.zipWith (fun a b => max a (max b lo)) l1 l2).take reps
      let draws := List.zipWith
        (fun (m : ℤ) (i : ℕ) => npRound (uniformDraw (m : ℚ) (hi : ℚ) (u anc i)))
        minValues (List.range reps)
      updateA acc anc draws
    else updateA acc anc (List.replicate reps 0)
  | _ => acc

/-- The initial divergence-time dictionary: all-zero vectors for the
non-ancestral populations. -/
def initDraws (reps : ℕ) (pops : List String) (events : List DemoEvent) :
    List (String × List ℤ) :=
  (nonAncNames pops events).map (fun n => (n, List.replicate reps (0 : ℤ)))

/-- Source `ModelBuilder._draw_divergence_times`. -/
def drawDivergenceTimes (reps : ℕ) (u : String → ℕ → ℚ)
    (divPriors : String → ℤ × ℤ) (pops : List String)
    (events : List DemoEvent) : List (String × List ℤ) :=
  events.foldl (divTimeStep reps u divPriors) (initDraws reps pops events)

/-- Source `ModelBuilder._draw_migration_rates`: per migration event, keyed by the
population-index pair (the source builds the string key `"i_j"` from the
indices; the pair itself is the same data). -/
def drawMigrationRates (reps : ℕ) (uM : ℕ × ℕ → ℕ → ℚ) (migRange : ℚ × ℚ)
    (popKeys : List (String × ℕ)) (model : Demography) :
    List ((ℕ × ℕ) × List ℚ) :=
  model.events.foldl (fun acc e =>
    match e.daughters? with
    | some (a, b) =>
      let k := ((lookupA popKeys a).getD 0, (lookupA popKeys b).getD 0)
      updateA acc k ((List.range reps).map fun i =>
        round10 (uniformDraw migRange.1 migRange.2 (uM k i)))
    | none => acc) []

/-- One comparison of the `_get_migration_stops` scan:
`if v > 0 and v < min: min = v`. -/
def scStopStep (m : WithTop ℤ) (v : ℤ) : WithTop ℤ :=
  if 0 < v ∧ (v : WithTop ℤ) < m then (v : WithTop ℤ) else m

/-- The accumulator loop of `_get_migration_stops` for one replicate:
starting from `np.inf` (here `⊤`), keep the smallest positive entry. -/
def minNonzeroFold (divDraws : List (String × List ℤ)) (rep : ℕ) : WithTop ℤ :=
  divDraws.foldl (fun m kv => scStopStep m (kv.2.getD rep 0)) ⊤

/-- Source `ModelBuilder._get_migration_stops`: per replicate,
`ceil(min/2)` of the smallest positive divergence-time draw
(`⊤` = `np.inf` when every draw is zero). -/
def getMigrationStops (reps : ℕ) (divDraws : List (String × List ℤ)) :
    List (WithTop ℤ) :=
  (List.range reps).map (fun rep =>
    (minNonzeroFold divDraws rep).map (fun m : ℤ => (⌈(m : ℚ) / 2⌉ : ℤ)))

/-- The inner scan of `_get_migration_starts` locating the divergence event
whose derived pair is the two daughters; the source keeps overwriting a
local, so the last match wins (on no match the local would be stale or
unbound — modelled as `none` and excluded by hypothesis where used). -/
def ancestorFor (events : List DemoEvent) (d1 d2 : String) : Option String :=
  events.foldl (fun a e =>
    match e with
    | .split _ e1 e2 anc =>
        if (d1 = e1 ∨ d1 = e2) ∧ (d2 = e1 ∨ d2 = e2) then some anc else a
    | _ => a) none

/-- Indexing into a divergence-time draw dictionary. -/
def timeAt (divDraws : List (String × List ℤ)) (n : String) (rep : ℕ) : ℚ :=
  (((lookupA divDraws n).getD []).getD rep 0 : ℤ)

/-- The start time `_get_migration_starts` computes for one pair in one
replicate. -/
def dwgStartValue (events : List DemoEvent) (divDraws : List (String × List ℤ))
    (rep : ℕ) (d1 d2 : String) : ℚ :=
  let anc := (ancestorFor events d1 d2).getD ""
  let ta := timeAt divDraws anc rep
  let mx := max (timeAt divDraws d1 rep) (timeAt divDraws d2 rep)
  ((ta - mx) / 2) + mx

/-- One event of the inner loop of `_get_migration_starts`: migration
events append their pair's start time to the per-key list. -/
def startInner (divDraws : List (String × List ℤ)) (popKeys : List (String × ℕ))
    (events : List DemoEvent) (rep : ℕ) (dict : List ((ℕ × ℕ) × List ℚ))
    (e : DemoEvent) : List ((ℕ × ℕ) × List ℚ) :=
  match e.daughters? with
  | some (d1, d2) =>
      appendA dict ((lookupA popKeys d1).getD 0, (lookupA popKeys d2).getD 0)
        (dwgStartValue events divDraws rep d1 d2)
  | none => dict

/-- Source `ModelBuilder._get_migration_starts`: the outer loop runs over
replicates, the inner one over events, appending each pair's start time to
its per-key list. -/
def getMigrationStarts (reps : ℕ) (model : Demography)
    (divDraws : List (String × List ℤ)) (popKeys : List (String × ℕ)) :
    List ((ℕ × ℕ) × List ℚ) :=
  (List.range reps).foldl (fun dict rep =>
    model.events.foldl (startInner divDraws popKeys model.events rep) dict) []

/-- The start values the inner loop of `_get_migration_starts` appends for
one key while sweeping a list of events. -/
def startOccOn (divDraws : List (String × List ℤ)) (popKeys : List (String × ℕ))
    (events : List DemoEvent) (rep : ℕ) (k : ℕ × ℕ) (l : List DemoEvent) :
    List ℚ :=
  l.filterMap fun e =>
    match e.daughters? with
    | some (d1, d2) =>
        if ((lookupA popKeys d1).getD 0, (lookupA popKeys d2).getD 0) = k
        then some (dwgStartValue events divDraws rep d1 d2) else none
    | none => none

/-- One replicate of `_draw_parameters_divergence`: a deep copy of the
model with sizes and split times substituted (no event re-sort in the
source). -/
def assignDivReplicate (sizeDraws divDraws : List (String × List ℤ)) (rep : ℕ)
    (model : Demography) : Demography :=
  { model with
    populations := model.populations.map (fun p =>
      { p with initialSize := ((((lookupA sizeDraws p.name).getD []).getD rep 0 : ℤ) : ℚ) }),
    events := model.events.map (fun e =>
      match e with
      | .split _ d1 d2 anc =>
          .split (((((lookupA divDraws anc).getD []).getD rep 0 : ℤ) : ℚ) : WithTop ℚ) d1 d2 anc
      | other => other) }

/-- Source `ModelBuilder._draw_parameters_divergence`. -/
def drawParametersDivergence (reps : ℕ) (uS u : String → ℕ → ℚ)
    (popPriors divPriors : String → ℤ × ℤ) (models : List Demography) :
    List (List Demography) :=
  models.map fun original =>
    let sizeDraws := (drawPopulationSizes reps uS popPriors original).1
    let divDraws := drawDivergenceTimes reps u divPriors
      (original.populations.map (·.name)) original.events
    (List.range reps).map (fun rep => assignDivReplicate sizeDraws divDraws rep original)

/-- The event substitution of `_draw_parameters_sc`: split times from the
divergence draws, every migration event's time set to the replicate's
migration stop. -/
def scEventSub (divDraws : List (String × List ℤ)) (stopT : WithTop ℚ)
    (rep : ℕ) (e : DemoEvent) : DemoEvent :=
  match e with
  | .split _ d1 d2 anc =>
      .split (((((lookupA divDraws anc).getD []).getD rep 0 : ℤ) : ℚ) : WithTop ℚ) d1 d2 anc
  | .migRateChange _ s d r => .migRateChange stopT s d r
  | .symMigRateChange _ p1 p2 r => .symMigRateChange stopT p1 p2 r

/-- The migration-matrix assignment of `_draw_parameters_sc` for one rate
key, mirrored in symmetric mode. -/
def scMatrixStep (symmetric : Bool) (rep : ℕ) (md : Demography)
    (kv : (ℕ × ℕ) × List ℚ) : Demography :=
  let md' := { md with
    migrationMatrix := updateA md.migrationMatrix kv.1 (kv.2.getD rep 0) }
  if symmetric then
    { md' with
      migrationMatrix := updateA md'.migrationMatrix (kv.1.2, kv.1.1) (kv.2.getD rep 0) }
  else md'

/-- One replicate of `_draw_parameters_sc`: split times from the draws,
every migration event's time set to the replicate's migration stop, and
the migration matrix entries set from the rate draws (mirrored in
symmetric mode).  No event re-sort in the source. -/
def assignScReplicate (sizeDraws divDraws : List (String × List ℤ))
    (stops : List (WithTop ℤ)) (rateDraws : List ((ℕ × ℕ) × List ℚ))
    (symmetric : Bool) (rep : ℕ) (model : Demography) : Demography :=
  let stopT : WithTop ℚ := (stops.getD rep ⊤).map (fun z : ℤ => (z : ℚ))
  let base :=
    { model with
      populations := model.populations.map (fun p =>
        { p with initialSize := ((((lookupA sizeDraws p.name).getD []).getD rep 0 : ℤ) : ℚ) }),
      events := model.events.map (scEventSub divDraws stopT rep) }
  rateDraws.foldl (scMatrixStep symmetric rep) base

/-- Source `ModelBuilder._draw_parameters_sc`. -/
def drawParametersSc (reps : ℕ) (uS u : String → ℕ → ℚ) (uM : ℕ × ℕ → ℕ → ℚ)
    (migRange : ℚ × ℚ) (popPriors divPriors : String → ℤ × ℤ)
    (symmetric : Bool) (models : List Demography) : List (List Demography) :=
  models.map fun original =>
    let (sizeDraws, popKeys) := drawPopulationSizes reps uS popPriors original
    let divDraws := drawDivergenceTimes reps u divPriors
      (original.populations.map (·.name)) original.events
    let rateDraws := drawMigrationRates reps uM migRange popKeys original
    let stops := getMigrationStops reps divDraws
    (List.range reps).map (fun rep =>
      assignScReplicate sizeDraws divDraws stops rateDraws symmetric rep original)

/-! ### Concrete instances used by the claims -/

/-- Four-leaf balanced tree `((A,B)X,(C,D)Y)R`. -/
def balanced4 : STree :=
  .node "R" (.node "X" (.leaf "A") (.leaf "B")) (.node "Y" (.leaf "C") (.leaf "D"))

/-- The fully resolved divergence demography of `balanced4` (the empty
collapse combination, the last element of the enumeration). -/
def fullModel4 : Demography := divergenceDemographyFor balanced4 []

/-- Divergence-time priors for `balanced4`. -/
def divPriors4 : String → ℤ × ℤ := fun n =>
  if n = "X" then (0, 1000) else if n = "Y" then (0, 1000)
  else if n = "R" then (0, 2000) else (0, 0)

/-- Population-size priors used in the concrete runs. -/
def popPriors4 : String → ℤ × ℤ := fun _ => (0, 100)

/-- A deterministic unit-draw oracle for divergence times: `0.9` for `X`,
`0.5` for `Y`, `0` otherwise. -/
def uDiv4 : String → ℕ → ℚ := fun n _ =>
  if n = "X" then 9/10 else if n = "Y" then 1/2 else 0

/-- A unit-draw oracle that always returns `0`. -/
def uZero : String → ℕ → ℚ := fun _ _ => 0

/-! ### Schema writer

`ModelWriter` serializes one model per topology+migration-combination,
using the first replicate's structure.  Only the parts the claims are
about are embedded: the divergence list (`_get_divinfo`, order-preserving
over the event list) and the relation-expression strings emitted by
`_get_scinfo` and `_get_dwginfo`. -/

/-- One entry of the schema's `divergences` list. -/
structure SchemaDiv where
  derived1 : String
  derived2 : String
  ancestral : String
deriving DecidableEq

/-- Source `ModelWriter._get_divinfo`: the split events, in event-list order. -/
def writerDivs (events : List DemoEvent) : List SchemaDiv :=
  events.filterMap fun e =>
    match e with
    | .split _ d1 d2 a => some ⟨d1, d2, a⟩
    | _ => none

/-- The `time` keys of the divergence entries (`'Tdiv_' + ancestral`). -/
def writerDivTimeKeys (events : List DemoEvent) : List String :=
  (writerDivs events).map (fun d => "Tdiv_" ++ d.ancestral)

/-- The `end_time` relation `_get_scinfo` emits:
`'min(' + ','.join(time_values) + ')/2'`. -/
def scEndTimeRelation (events : List DemoEvent) : String :=
  "min(" ++ String.intercalate "," (writerDivTimeKeys events) ++ ")/2"

/-- Whether some split event has this population as its ancestral label
(the writer's `pop0div`/`pop1div` locals are set to the name itself
exactly when such an event exists). -/
def isAncestralIn (events : List DemoEvent) (p : String) : Bool :=
  events.any fun e =>
    match e with
    | .split _ _ _ a => a = p
    | _ => false

/-- The `start_time` relation `_get_dwginfo` emits for the migration pair
`(p0, p1)`: note the two-ancestral branch anchors at `min`, not `max`. -/
def dwgStartRelation (events : List DemoEvent) (p0 p1 : String) : String :=
  let anc := (ancestorFor events p0 p1).getD ""
  if isAncestralIn events p0 ∧ isAncestralIn events p1 then
    "(Tdiv_" ++ anc ++ " - min(Tdiv_" ++ p0 ++ ", Tdiv_" ++ p1 ++ "))/2 + min(Tdiv_" ++
      p0 ++ ", Tdiv_" ++ p1 ++ ")"
  else if isAncestralIn events p0 then
    "(Tdiv_" ++ anc ++ " - Tdiv_" ++ p0 ++ ")/2 + Tdiv_" ++ p0
  else if isAncestralIn events p1 then
    "(Tdiv_" ++ anc ++ " - Tdiv_" ++ p1 ++ ")/2 + Tdiv_" ++ p1
  else
    "Tdiv_" ++ anc ++ "/2"

/-- Modelled from the spec: the symbolic rendering the specification
requires for the gene-flow start time — the sampler's midpoint formula of
§4.3, anchored at the *maximum* of the two daughters' divergence times. -/
def specDwgStartRelation (anc p0 p1 : String) : String :=
  "(Tdiv_" ++ anc ++ " - max(Tdiv_" ++ p0 ++ ", Tdiv_" ++ p1 ++ "))/2 + max(Tdiv_" ++
    p0 ++ ", Tdiv_" ++ p1 ++ ")"

/-- The value of the min-anchored expression the writer emits for a pair
of ancestral daughters. -/
def minAnchoredStart (ta t0 t1 : ℚ) : ℚ :=
  ((ta - min t0 t1) / 2) + min t0 t1

/-- The value of the max-anchored midpoint formula the sampler computes
(§4.3 of the specification, `_get_migration_starts` in the source). -/
def maxAnchoredStart (ta t0 t1 : ℚ) : ℚ :=
  ((ta - max t0 t1) / 2) + max t0 t1

/-! ### Schema reader

`ModelReader.read_yaml` re-draws parameters from a persisted schema.  The
embedding keeps the per-file locals in a `ReaderDraws` record so that what
the source computes (and then discards) can be stated; KeyError /
IndexError / NameError raised by the source become `Except.error`, and the
potentially non-terminating ordering `while` loop is modelled with fuel
(`none` = the source loops forever). -/

structure SchemaPop where
  name : String
  size : String
deriving DecidableEq

/-- One entry of the schema's `migration` list; `end_time` is only present
for secondary-contact records (`'end_time' in migration` in the source). -/
structure SchemaMig where
  mtype : String
  source : String
  dest : String
  rateKey : String
  endTimeKey : Option String
deriving DecidableEq

structure SchemaDoc where
  populations : List SchemaPop
  priors : List (String × (ℚ × ℚ))
  divergences : List SchemaDiv
  migration : Option (List SchemaMig)
  relations : List (String × String)
deriving DecidableEq

/-- The inner scan computing one entry of the reader's
`divergence_dependencies` dictionary: the ancestral label of the *last*
divergence whose ancestral is one of this divergence's derived names
(`None` when there is none). -/
def depValue (divs : List SchemaDiv) (d : SchemaDiv) : Option String :=
  divs.foldl (fun r d2 =>
    if d2.ancestral = d.derived1 ∨ d2.ancestral = d.derived2
    then some d2.ancestral else r) none

/-- The reader's `divergence_dependencies` dictionary. -/
def divergenceDependencies (divs : List SchemaDiv) : List (String × Option String) :=
  divs.foldl (fun acc d => updateA acc d.ancestral (depValue divs d)) []

/-- One entry of the reader's ordering loop: append the divergence when its
dependency is `None` or already added (and it is itself not yet added). -/
def passStep (deps : List (String × Option String))
    (st : List SchemaDiv × List String) (d : SchemaDiv) :
    List SchemaDiv × List String :=
  match (lookupA deps d.ancestral).getD none with
  | none =>
      if d.ancestral ∉ st.2 then (st.1 ++ [d], st.2 ++ [d.ancestral]) else st
  | some p =>
      if p ∈ st.2 ∧ d.ancestral ∉ st.2 then (st.1 ++ [d], st.2 ++ [d.ancestral])
      else st

/-- One pass of the reader's ordering `while` loop over the divergence
list. -/
def orderPass (divs : List SchemaDiv) (deps : List (String × Option String))
    (st : List SchemaDiv × List String) : List SchemaDiv × List String :=
  divs.foldl (passStep deps) st

/-- The fuelled `while len(ordered) < len(divs)` loop; if a pass makes no
progress the source spins forever, which the fuel bound reports as
`none`. -/
def orderLoop (divs : List SchemaDiv) (deps : List (String × Option String)) :
    ℕ → List SchemaDiv × List String → Option (List SchemaDiv)
  | 0, st => if st.1.length < divs.length then none else some st.1
  | f + 1, st =>
      if st.1.length < divs.length then orderLoop divs deps f (orderPass divs deps st)
      else some st.1

/-- The reader's reconstructed divergence sampling order. -/
def readerOrder (divs : List SchemaDiv) : Option (List SchemaDiv) :=
  orderLoop divs (divergenceDependencies divs) (divs.length + 1) ([], [])

/-- The reader's population-size draws (KeyError on a missing prior). -/
def readPopDraws (reps : ℕ) (uP : String → ℕ → ℚ)
    (priors : List (String × (ℚ × ℚ))) :
    List SchemaPop → Except String (List (String × List ℤ))
  | [] => .ok []
  | p :: rest =>
    match lookupA priors p.size with
    | none => .error ("KeyError: " ++ p.size)
    | some pr => do
      let tail ← readPopDraws reps uP priors rest
      .ok ((p.name, (List.range reps).map fun i =>
        npRound (uniformDraw pr.1 pr.2 (uP p.name i))) :: tail)

/-- The reader's divergence-time draws, following the reconstructed order:
a `None`-dependency entry draws straight from its prior; otherwise the
source branches on which derived names are already drawn (at least one
always is — the final branch would be a Python `NameError`). -/
def readDivDraws (reps : ℕ) (uD : String → ℕ → ℚ)
    (priors : List (String × (ℚ × ℚ))) (deps : List (String × Option String)) :
    List SchemaDiv → List (String × List ℤ) →
    Except String (List (String × List ℤ))
  | [], acc => .ok acc
  | d :: rest, acc =>
    match lookupA priors ("Tdiv_" ++ d.ancestral) with
    | none => .error ("KeyError: Tdiv_" ++ d.ancestral)
    | some pr =>
      match (lookupA deps d.ancestral).getD none with
      | none =>
          readDivDraws reps uD priors deps rest
            (updateA acc d.ancestral ((List.range reps).map fun i =>
              npRound (uniformDraw pr.1 pr.2 (uD d.ancestral i))))
      | some _ =>
        let mk : List ℚ → List ℤ :=
          fun minValues => List.zipWith
            (fun (m : ℚ) (i : ℕ) => npRound (uniformDraw m pr.2 (uD d.ancestral i)))
            minValues (List.range reps)
        match lookupA acc d.derived1, lookupA acc d.derived2 with
        | some l1, some l2 =>
            readDivDraws reps uD priors deps rest
              (updateA acc d.ancestral
                (mk ((List.zipWith (fun (a b : ℤ) => max (max (a : ℚ) (b : ℚ)) pr.1)
                  l1 l2).take reps)))
        | some l1, none =>
            readDivDraws reps uD priors deps rest
              (updateA acc d.ancestral
                (mk ((l1.map (fun (a : ℤ) => max (a : ℚ) pr.1)).take reps)))
        | none, some l2 =>
            readDivDraws reps uD priors deps rest
              (updateA acc d.ancestral
                (mk ((l2.map (fun (a : ℤ) => max (a : ℚ) pr.1)).take reps)))
        | none, none => .error "NameError: name min_values is not defined"

/-- The reader's migration loop: rate draws per migration entry, and for
entries with an `end_time`, the relation string is fetched and split —
after which the source stops (`# STOPPED HERE SATURDAY`), discarding the
pieces; no migration timing is ever produced. -/
def readMigDraws (reps : ℕ) (uR : String → ℕ → ℚ)
    (priors : List (String × (ℚ × ℚ))) (relations : List (String × String)) :
    List SchemaMig → Except String (List (String × List ℚ))
  | [] => .ok []
  | m :: rest =>
    match lookupA priors m.rateKey with
    | none => .error ("KeyError: " ++ m.rateKey)
    | some pr =>
      let step : Except String Unit :=
        match m.endTimeKey with
        | none => .ok ()
        | some _ =>
          match lookupA relations ("Tmigend_" ++ m.source ++ "_" ++ m.dest) with
          | none => .error ("KeyError: Tmigend_" ++ m.source ++ "_" ++ m.dest)
          | some endtime =>
            match (endtime.splitOn "(").get? 1 with
            | none => .error "IndexError: list index out of range"
            | some inner =>
              let _mintimes := (((inner.splitOn ")").getD 0 "").splitOn ",")
              .ok ()
      match step with
      | .error e => .error e
      | .ok _ => do
        let tail ← readMigDraws reps uR priors relations rest
        .ok ((m.rateKey, (List.range reps).map fun i =>
          round10 (uniformDraw pr.1 pr.2 (uR m.rateKey i))) :: tail)

/-- The per-file locals of `ModelReader.read_yaml` at the end of the loop
body. -/
structure ReaderDraws where
  populationSizeDraws : List (String × List ℤ)
  divergenceTimeDraws : List (String × List ℤ)
  migrationRates : List (String × List ℚ)
  migrationTimes : List (String × List ℚ)
deriving DecidableEq

/-- The loop body of `ModelReader.read_yaml` for one schema artifact.  The
`migration_times` dictionary is initialised empty and never filled: the
implementation stops right after splitting the relation string. -/
def readYamlFile (reps : ℕ) (uP uD uR : String → ℕ → ℚ) (doc : SchemaDoc) :
    Except String ReaderDraws := do
  let popDraws ← readPopDraws reps uP doc.priors doc.populations
  let deps := divergenceDependencies doc.divergences
  match readerOrder doc.divergences with
  | none => .error "the ordering while loop does not terminate"
  | some ordered => do
    let divDraws ← readDivDraws reps uD doc.priors deps ordered []
    let migRates ←
      match doc.migration with
      | none => pure []
      | some migs => readMigDraws reps uR doc.priors doc.relations migs
    .ok ⟨popDraws, divDraws, migRates, []⟩

/-- Source `ModelReader.read_yaml`: iterates over the artifacts, computes the
per-file locals, discards them, and returns `None`. -/
def readYaml (reps : ℕ) (uP uD uR : String → ℕ → ℚ) (docs : List SchemaDoc) :
    Except String (Option Unit) := do
  let _ ← docs.mapM (readYamlFile reps uP uD uR)
  .ok none

/-! ### Further concrete instances -/

/-- The fully resolved divergence demography of `tree3`. -/
def fullModel3 : Demography := divergenceDemographyFor tree3 []

/-- Divergence-time priors for `tree3`. -/
def divPriors3 : String → ℤ × ℤ := fun n =>
  if n = "X" then (0, 1000) else if n = "R" then (0, 2000) else (0, 0)

/-- Unit-draw oracle for `tree3` divergence times: `0.5` for `X`, `0`
otherwise. -/
def uDiv3 : String → ℕ → ℚ := fun n _ => if n = "X" then 1/2 else 0

/-- The secondary-contact demography `tree3`'s full topology would carry
for the asymmetric pair `(A, B)` (matrix entry by population indices, one
rate-change event, events re-sorted). -/
def scModel3 : Demography :=
  { fullModel3 with
    migrationMatrix := [((0, 1), 1/1000)],
    events := sortEvents (fullModel3.events ++ [DemoEvent.migRateChange 100 "A" "B" 0]) }

/-- The divergence-with-gene-flow demography for `tree3`'s full topology
and the asymmetric pair `(A, B)`. -/
def dwgModel3 : Demography :=
  { fullModel3 with
    events := sortEvents (fullModel3.events ++ [DemoEvent.migRateChange 100 "A" "B" (1/1000)]) }

/-- A gene-flow demography on `balanced4` whose migration pair `(X, Y)`
has two ancestral daughters (the case separating the writer's `min` from
the sampler's `max`). -/
def dwgModel4 : Demography :=
  { fullModel4 with
    events := sortEvents (fullModel4.events ++ [DemoEvent.migRateChange 100 "X" "Y" (1/1000)]) }

/-- Divergence draws used in the `dwgModel4` evaluation. -/
def divDraws4 : List (String × List ℤ) :=
  [("A", [0]), ("B", [0]), ("C", [0]), ("D", [0]), ("X", [900]), ("Y", [500]), ("R", [2000])]

/-- The persisted schema artifact of the secondary-contact model
`scModel3` (what `ModelWriter` emits for it). -/
def scDoc3 : SchemaDoc :=
  { populations :=
      [⟨"A", "Ne_A"⟩, ⟨"B", "Ne_B"⟩, ⟨"X", "Ne_X"⟩, ⟨"C", "Ne_C"⟩, ⟨"R", "Ne_R"⟩],
    priors :=
      [("Ne_A", (10, 100)), ("Ne_B", (10, 100)), ("Ne_X", (10, 100)),
       ("Ne_C", (10, 100)), ("Ne_R", (10, 100)),
       ("Tdiv_X", (0, 1000)), ("Tdiv_R", (0, 2000)), ("Mig_A_B", (0, 1/100))],
    divergences := [⟨"A", "B", "X"⟩, ⟨"X", "C", "R"⟩],
    migration := some [⟨"asymmetric", "A", "B", "Mig_A_B", some "Tmigend_A_B"⟩],
    relations := [("Tmigend_A_B", "min(Tdiv_X,Tdiv_R)/2")] }

/-- A constant one-half unit-draw oracle. -/
def uHalf : String → ℕ → ℚ := fun _ _ => 1/2

/-! ### Statement-level predicates -/

/-- The migration matrix marks the ordered pair `(p, q)` with `"T"`. -/
def MatrixMarked (migDf : MigDf) (p q : String) : Prop :=
  ∃ row ∈ migDf, row.1 = p ∧ ∃ c ∈ row.2, c.1 = q ∧ c.2 = "T"

instance (migDf : MigDf) (p q : String) : Decidable (MatrixMarked migDf p q) :=
  inferInstanceAs (Decidable (∃ row ∈ migDf, row.1 = p ∧ ∃ c ∈ row.2, c.1 = q ∧ c.2 = "T"))

/-- Well-nested priors for the divergence-time sampler, witnessed by a cap
function: every non-zero-time split's prior interval is ordered, lies
above the caps of both derived populations, and below the cap of the
ancestral one. -/
def EvOK (divPriors : String → ℤ × ℤ) (cap : String → ℤ) : DemoEvent → Prop
  | .split t d1 d2 anc =>
      t ≠ 0 →
        (divPriors anc).1 ≤ (divPriors anc).2 ∧
        cap d1 ≤ (divPriors anc).2 ∧ cap d2 ≤ (divPriors anc).2 ∧
        (divPriors anc).2 ≤ cap anc
  | _ => True

instance (divPriors : String → ℤ × ℤ) (cap : String → ℤ) (e : DemoEvent) :
    Decidable (EvOK divPriors cap e) := by
  cases e <;> simp only [EvOK] <;> infer_instance

/-- Executable dependency-closure check for an event list: every
non-zero-time split's derived populations are either non-ancestral
populations or ancestral labels of earlier events. -/
def depClosedB (pops : List String) (allEvents : List DemoEvent) :
    List String → List DemoEvent → Bool
  | _, [] => true
  | seen, e :: rest =>
    match e with
    | .split t d1 d2 anc =>
        (decide (t = 0) ||
          (decide (d1 ∈ nonAncNames pops allEvents ∨ d1 ∈ seen) &&
           decide (d2 ∈ nonAncNames pops allEvents ∨ d2 ∈ seen))) &&
        depClosedB pops allEvents (seen ++ [anc]) rest
    | _ => depClosedB pops allEvents seen rest

/-- Executable check that a schema divergence list is dependency-ordered:
every divergence whose ancestral label is a derived name of a later entry
appears before that entry. -/
def depOrderedB (allDivs : List SchemaDiv) : List String → List SchemaDiv → Bool
  | _, [] => true
  | seen, d :: rest =>
      allDivs.all (fun d2 =>
        !(decide (d2.ancestral = d.derived1 ∨ d2.ancestral = d.derived2)) ||
        decide (d2.ancestral ∈ seen)) &&
      depOrderedB allDivs (seen ++ [d.ancestral]) rest

/-- The population-index keys of the migration events, in event order. -/
def rateKeys (events : List DemoEvent) (popKeys : List (String × ℕ)) :
    List (ℕ × ℕ) :=
  events.filterMap fun e =>
    (e.daughters?).map (fun p => ((lookupA popKeys p.1).getD 0, (lookupA popKeys p.2).getD 0))

/-- The divergence-time draws of one replicate, in dictionary order. -/
def divVals (divDraws : List (String × List ℤ)) (rep : ℕ) : List ℤ :=
  divDraws.map (fun kv => kv.2.getD rep 0)

/-- A cap function witnessing `EvOK` for the `tree3` priors. -/
def cap3 : String → ℤ := fun n =>
  if n = "X" then 1000 else if n = "R" then 2000 else 0

end Delimitpy

namespace Delimitpy

/-! ## Helper lemmas -/

theorem floor_le_npRound (q : ℚ) : ⌊q⌋ ≤ npRound q := by
  unfold npRound
  split
  · split <;> omega
  · exact Int.floor_le_floor (by linarith)

theorem npRound_le_ceil (q : ℚ) : npRound q ≤ ⌈q⌉ := by
  unfold npRound
  split
  · rename_i h
    have hq : q = (⌊q⌋ : ℚ) + 1/2 := by linarith
    have h1 : (⌊q⌋ : ℚ) < (⌈q⌉ : ℚ) := by
      have := Int.le_ceil q
      linarith [hq ▸ this]
    have h2 : ⌊q⌋ < ⌈q⌉ := by exact_mod_cast h1
    split <;> omega
  · have : q + 1/2 < (⌈q⌉ : ℚ) + 1 := by linarith [Int.le_ceil q]
    have := Int.floor_lt.mpr (by push_cast; linarith : q + 1/2 < ((⌈q⌉ + 1 : ℤ) : ℚ))
    omega

theorem le_npRound {x : ℤ} {q : ℚ} (h : (x : ℚ) ≤ q) : x ≤ npRound q :=
  le_trans (Int.le_floor.mpr h) (floor_le_npRound q)

theorem npRound_le {y : ℤ} {q : ℚ} (h : q ≤ (y : ℚ)) : npRound q ≤ y :=
  le_trans (npRound_le_ceil q) (Int.ceil_le.mpr h)

theorem uniformDraw_le {lo hi u : ℚ} (hu1 : u < 1) (hlh : lo ≤ hi) :
    uniformDraw lo hi u ≤ hi := by
  unfold uniformDraw
  nlinarith [sub_nonneg.mpr hlh]

theorem le_uniformDraw {lo hi u : ℚ} (hu0 : 0 ≤ u) (hlh : lo ≤ hi) :
    lo ≤ uniformDraw lo hi u := by
  unfold uniformDraw
  nlinarith [sub_nonneg.mpr hlh]

theorem find?_overwrite_self {κ α : Type} [DecidableEq κ]
    (m : List (κ × α)) (k : κ) (v : α)
    (h : (m.find? (fun x => decide (x.1 = k))).isSome) :
    List.find? (fun x => decide (x.1 = k)) (m.map fun x => if x.1 = k then (k, v) else x) =
      some (k, v) := by
  induction m with
  | nil => simp at h
  | cons hd tl ih =>
    by_cases hk : hd.1 = k
    · rw [List.map_cons, if_pos hk, List.find?_cons_of_pos _ (by simp)]
    · rw [List.map_cons, if_neg hk, List.find?_cons_of_neg _ (by simpa using hk)]
      apply ih
      rw [List.find?_cons_of_neg _ (by simpa using hk)] at h
      exact h

theorem find?_overwrite_ne {κ α : Type} [DecidableEq κ]
    (m : List (κ × α)) (k k' : κ) (v : α) (h : k' ≠ k) :
    List.find? (fun x => decide (x.1 = k')) (m.map fun x => if x.1 = k then (k, v) else x) =
      List.find? (fun x => decide (x.1 = k')) m := by
  induction m with
  | nil => rfl
  | cons hd tl ih =>
    by_cases hk : hd.1 = k
    · rw [List.map_cons, if_pos hk,
        List.find?_cons_of_neg _ (by simpa using Ne.symm h),
        List.find?_cons_of_neg _ (by simp [hk, Ne.symm h])]
      exact ih
    · rw [List.map_cons, if_neg hk]
      by_cases hk' : hd.1 = k'
      · rw [List.find?_cons_of_pos _ (by simpa using hk'),
          List.find?_cons_of_pos _ (by simpa using hk')]
      · rw [List.find?_cons_of_neg _ (by simpa using hk'),
          List.find?_cons_of_neg _ (by simpa using hk')]
        exact ih

theorem lookupA_append {κ α : Type} [DecidableEq κ]
    (m₁ m₂ : List (κ × α)) (k : κ) :
    lookupA (m₁ ++ m₂) k =
      if (lookupA m₁ k).isSome then lookupA m₁ k else lookupA m₂ k := by
  unfold lookupA
  rw [List.find?_append]
  cases List.find? (fun x => decide (x.1 = k)) m₁ <;> simp

theorem lookupA_updateA_self {κ α : Type} [DecidableEq κ]
    (m : List (κ × α)) (k : κ) (v : α) : lookupA (updateA m k v) k = some v := by
  unfold updateA
  split
  · rename_i h
    unfold lookupA
    rw [find?_overwrite_self m k v h]
    rfl
  · rename_i h
    rw [lookupA_append]
    have hnone : lookupA m k = none := by
      unfold lookupA
      rcases hf : List.find? (fun x => decide (x.1 = k)) m with _ | p
      · rw [hf]; rfl
      · rw [hf] at h; simp at h
    rw [hnone]
    simp [lookupA, List.find?]

theorem lookupA_updateA_ne {κ α : Type} [DecidableEq κ]
    (m : List (κ × α)) (k k' : κ) (v : α) (h : k' ≠ k) :
    lookupA (updateA m k v) k' = lookupA m k' := by
  unfold updateA
  split
  · unfold lookupA
    rw [find?_overwrite_ne m k k' v h]
  · rw [lookupA_append]
    rcases hf : lookupA m k' with _ | p
    · simp [hf, lookupA, List.find?, Ne.symm h]
    · simp [hf]

theorem updateA_fresh {κ α : Type} [DecidableEq κ]
    (m : List (κ × α)) (k : κ) (v : α) (h : lookupA m k = none) :
    updateA m k v = m ++ [(k, v)] := by
  have hf : List.find? (fun x => decide (x.1 = k)) m = none := by
    unfold lookupA at h
    rcases hf : List.find? (fun x => decide (x.1 = k)) m with _ | p
    · exact hf
    · rw [hf] at h; simp at h
  unfold updateA
  rw [hf]
  simp

/-! ## Claim theorems -/

/-- C1: the topology enumeration does not keep exactly the
contiguity-valid collapse combinations.  On the caterpillar tree
`(((A,B)X,C)Y,D)R`, `_remove_conflicting` keeps the combination
`{R, X}` (its last-iterated node `X` has no internal descendants, and the
check only inspects the last node), although the combination is invalid:
the chosen node `R` has the internal descendant `Y` outside the set. -/
theorem c1_enumeration_keeps_invalid_combo :
    ["R", "X"] ∈ keptCombos caterpillar4 ∧
    ¬ ValidCombo caterpillar4 ["R", "X"] := by decide

/-- C2: on the three-leaf tree `((A,B)X,C)R` with migration allowed
between `A` and `B`, secondary-contact enumeration in asymmetric mode
with one allowed migration event does not produce the claimed three
models: the source never assigns `to_include` outside the symmetric
branch, so the enumeration stops with a `NameError` on the first
divergence demography (of which there are three). -/
theorem c2_asymmetric_sc_enumeration_raises :
    createScDemographies false 1 migDf3 (createDivergenceDemographies tree3) =
      Except.error "NameError: name to_include is not defined" ∧
    (createDivergenceDemographies tree3).length = 3 :=
  ⟨rfl, by decide⟩

/-- C4: the schema reader never produces a replicate batch.  On a
well-formed secondary-contact artifact it draws population sizes,
divergence times and migration rates into locals, splits the persisted
end-time relation, and then stops: the migration-times dictionary stays
empty and `read_yaml` returns `None`, so no batch (complete or otherwise)
is ever returned. -/
theorem c4_reader_returns_no_batch :
    (readYamlFile 2 uHalf uHalf uHalf scDoc3).map ReaderDraws.migrationTimes =
      Except.ok [] ∧
    readYaml 2 uHalf uHalf uHalf [scDoc3] = Except.ok none := by
  constructor <;> with_unfolding_all rfl

/-- C6: divergence-model replicates are not re-sorted after parameter
drawing.  On the balanced tree `((A,B)X,(C,D)Y)R`, with `X` drawn at 900,
`Y` at 500 and `R` at 900, the only replicate of the fully resolved model
keeps the construction order `[900, 500, 900]`, which is not in
non-decreasing time order (`_draw_parameters_divergence` has no
`sort_events` call; only the gene-flow variant sorts). -/
theorem c6_divergence_replicate_not_sorted :
    fullModel4 ∈ createDivergenceDemographies balanced4 ∧
    (((drawParametersDivergence 1 uZero uDiv4 popPriors4 divPriors4
        [fullModel4]).getD 0 []).getD 0 ⟨[], [], []⟩).events.map DemoEvent.time =
      [((900 : ℚ) : WithTop ℚ), ((500 : ℚ) : WithTop ℚ), ((900 : ℚ) : WithTop ℚ)] ∧
    ¬ List.Chain' (· ≤ ·)
      ((((drawParametersDivergence 1 uZero uDiv4 popPriors4 divPriors4
        [fullModel4]).getD 0 []).getD 0 ⟨[], [], []⟩).events.map DemoEvent.time) := by
  have hval :
      (((drawParametersDivergence 1 uZero uDiv4 popPriors4 divPriors4
        [fullModel4]).getD 0 []).getD 0 ⟨[], [], []⟩).events.map DemoEvent.time =
      [((900 : ℚ) : WithTop ℚ), ((500 : ℚ) : WithTop ℚ), ((900 : ℚ) : WithTop ℚ)] := by
    with_unfolding_all decide
  refine ⟨by decide, hval, ?_⟩
  rw [hval]
  intro hchain
  rcases List.chain'_cons.mp hchain with ⟨hle, _⟩
  rw [WithTop.coe_le_coe] at hle
  norm_num at hle

/-- C9: the writer's gene-flow start-time relation is not the symbolic
rendering of the sampler's formula.  For the pair `(X, Y)` on the balanced
tree (both daughters ancestral), `_get_dwginfo` emits the `min`-anchored
string, which differs from the max-anchored rendering of the sampler's
§4.3 formula, and at the draws `T_R = 2000, T_X = 900, T_Y = 500` the two
expressions evaluate to 1250 and 1450; the sampler itself
(`_get_migration_starts`) computes the max-anchored 1450.  The
secondary-contact half of the claim does hold: `_get_scinfo` emits
`min(...)/2` over the divergence-time keys. -/
theorem c9_writer_start_relation_min_not_max :
    dwgStartRelation dwgModel4.events "X" "Y" =
      "(Tdiv_R - min(Tdiv_X, Tdiv_Y))/2 + min(Tdiv_X, Tdiv_Y)" ∧
    dwgStartRelation dwgModel4.events "X" "Y" ≠ specDwgStartRelation "R" "X" "Y" ∧
    scEndTimeRelation scModel3.events = "min(Tdiv_X,Tdiv_R)/2" ∧
    dwgStartValue dwgModel4.events divDraws4 0 "X" "Y" = maxAnchoredStart 2000 900 500 ∧
    minAnchoredStart 2000 900 500 = 1250 ∧ maxAnchoredStart 2000 900 500 = 1450 := by
  refine ⟨by decide, by decide, by decide, ?_, ?_, ?_⟩ <;> with_unfolding_all rfl

/-- C10: a pair enters the migration-eligible lists (secondary contact or
gene flow) only if the migration matrix marks that ordered pair with the
string `"T"` and the two names differ. -/
theorem c10_eligible_pairs_need_T (migDf : MigDf) (d : Demography) (p q : String) :
    ((p, q) ∈ findScToInclude migDf d → MatrixMarked migDf p q ∧ p ≠ q) ∧
    ((p, q) ∈ findDwgToInclude migDf d → MatrixMarked migDf p q ∧ p ≠ q) := by
  constructor
  all_goals
    intro h
    rcases List.mem_flatMap.mp h with ⟨row, hrow, hmem⟩
    rcases List.mem_filterMap.mp hmem with ⟨col, hcol, hval⟩
    split at hval
    case isTrue hc =>
      have hpq := Option.some.inj hval
      have hp : row.1 = p := congrArg Prod.fst hpq
      have hq : col.1 = q := congrArg Prod.snd hpq
      refine ⟨⟨row, hrow, hp, col, hcol, hq, hc.2.1⟩, ?_⟩
      rw [← hp, ← hq]
      exact hc.1
    case isFalse hc => exact absurd hval (by simp)

/-- C10 witness: on the full three-leaf topology with migration allowed
between `A` and `B`, the eligible pair `(A, B)` indeed has its matrix
entry marked `"T"`. -/
theorem c10_witness : MatrixMarked migDf3 "A" "B" ∧ "A" ≠ "B" :=
  (c10_eligible_pairs_need_T migDf3 fullModel3 "A" "B").1 (by decide)

/-! ## Secondary-contact stop times (C7) -/

theorem getD_eq_of_getElem? {α : Type} (l : List α) (i : ℕ) (d a : α)
    (h : l[i]? = some a) : l.getD i d = a := by
  simp [List.getD, h]

theorem scStopStep_go (t : List ℤ) : ∀ acc : WithTop ℤ,
    (t.foldl scStopStep acc = acc ∨
      ∃ m : ℤ, t.foldl scStopStep acc = (m : WithTop ℤ) ∧ m ∈ t ∧ 0 < m) ∧
    t.foldl scStopStep acc ≤ acc ∧
    ∀ v ∈ t, 0 < v → t.foldl scStopStep acc ≤ (v : WithTop ℤ) := by
  induction t with
  | nil => exact fun acc => ⟨Or.inl rfl, le_refl _, by simp⟩
  | cons v t ih =>
    intro acc
    rw [List.foldl_cons]
    obtain ⟨ih1, ih2, ih3⟩ := ih (scStopStep acc v)
    have hstep_le : scStopStep acc v ≤ acc := by
      unfold scStopStep
      split
      · exact le_of_lt (by rename_i hc; exact hc.2)
      · exact le_refl _
    have hstep_v : 0 < v → scStopStep acc v ≤ (v : WithTop ℤ) := by
      intro hv
      unfold scStopStep
      split
      · exact le_refl _
      · rename_i hc
        rcases not_and_or.mp hc with h | h
        · exact absurd hv h
        · exact le_of_not_lt h
    refine ⟨?_, le_trans ih2 hstep_le, ?_⟩
    · rcases ih1 with h | ⟨m, hm, hmem, hpos⟩
      · rw [h]
        unfold scStopStep
        split
        · rename_i hc
          exact Or.inr ⟨v, rfl, List.mem_cons_self .., hc.1⟩
        · exact Or.inl rfl
      · exact Or.inr ⟨m, hm, List.mem_cons_of_mem _ hmem, hpos⟩
    · intro w hw hwpos
      rcases List.mem_cons.mp hw with h | h
      · subst h
        exact le_trans ih2 (hstep_v hwpos)
      · exact ih3 w h hwpos

theorem minNonzeroFold_eq_vals (divDraws : List (String × List ℤ)) (rep : ℕ) :
    minNonzeroFold divDraws rep = (divVals divDraws rep).foldl scStopStep ⊤ := by
  unfold minNonzeroFold divVals
  rw [List.foldl_map]

theorem minNonzeroFold_spec (divDraws : List (String × List ℤ)) (rep : ℕ)
    (h : ∃ v ∈ divVals divDraws rep, 0 < v) :
    ∃ m : ℤ, minNonzeroFold divDraws rep = (m : WithTop ℤ) ∧
      m ∈ divVals divDraws rep ∧ 0 < m ∧
      ∀ v ∈ divVals divDraws rep, 0 < v → m ≤ v := by
  rw [minNonzeroFold_eq_vals]
  obtain ⟨h1, _, h3⟩ := scStopStep_go (divVals divDraws rep) ⊤
  obtain ⟨v₀, hv₀mem, hv₀pos⟩ := h
  rcases h1 with htop | ⟨m, hm, hmem, hpos⟩
  · exact absurd (htop ▸ h3 v₀ hv₀mem hv₀pos) (by simp)
  · refine ⟨m, hm, hmem, hpos, ?_⟩
    intro v hv hvpos
    have := hm ▸ h3 v hv hvpos
    exact_mod_cast this

theorem scMatrixStep_events (symmetric : Bool) (rep : ℕ) (md : Demography)
    (kv : (ℕ × ℕ) × List ℚ) : (scMatrixStep symmetric rep md kv).events = md.events := by
  unfold scMatrixStep
  split <;> rfl

theorem foldl_scMatrixStep_events (symmetric : Bool) (rep : ℕ)
    (l : List ((ℕ × ℕ) × List ℚ)) : ∀ md : Demography,
    (l.foldl (scMatrixStep symmetric rep) md).events = md.events := by
  induction l with
  | nil => exact fun _ => rfl
  | cons kv t ih =>
    intro md
    rw [List.foldl_cons, ih, scMatrixStep_events]

theorem assignScReplicate_events (sizeDraws divDraws : List (String × List ℤ))
    (stops : List (WithTop ℤ)) (rateDraws : List ((ℕ × ℕ) × List ℚ))
    (symmetric : Bool) (rep : ℕ) (model : Demography) :
    (assignScReplicate sizeDraws divDraws stops rateDraws symmetric rep model).events =
      model.events.map
        (scEventSub divDraws ((stops.getD rep ⊤).map (fun z : ℤ => (z : ℚ))) rep) := by
  unfold assignScReplicate
  rw [foldl_scMatrixStep_events]

/-- C7: in every replicate `_draw_parameters_sc` emits, the migration stop
time assigned to every migration event is one and the same value:
the ceiling of half the smallest positive divergence-time draw of that
replicate. -/
theorem c7_sc_stop_times (reps : ℕ) (uS u : String → ℕ → ℚ) (uM : ℕ × ℕ → ℕ → ℚ)
    (migRange : ℚ × ℚ) (popPriors divPriors : String → ℤ × ℤ) (symmetric : Bool)
    (models : List Demography) (k rep : ℕ) (original : Demography)
    (replList : List Demography) (repl : Demography)
    (hk : models[k]? = some original)
    (h1 : (drawParametersSc reps uS u uM migRange popPriors divPriors symmetric
      models)[k]? = some replList)
    (h2 : replList[rep]? = some repl)
    (hpos : ∃ v ∈ divVals (drawDivergenceTimes reps u divPriors
      (original.populations.map (·.name)) original.events) rep, 0 < v) :
    ∃ m : ℤ,
      m ∈ divVals (drawDivergenceTimes reps u divPriors
        (original.populations.map (·.name)) original.events) rep ∧ 0 < m ∧
      (∀ v ∈ divVals (drawDivergenceTimes reps u divPriors
        (original.populations.map (·.name)) original.events) rep, 0 < v → m ≤ v) ∧
      ∀ e ∈ repl.events, (e.daughters?).isSome →
        e.time = (((⌈(m : ℚ) / 2⌉ : ℤ) : ℚ) : WithTop ℚ) := by
  set divDraws := drawDivergenceTimes reps u divPriors
    (original.populations.map (·.name)) original.events with hdd
  obtain ⟨m, hmfold, hmmem, hmpos, hmmin⟩ := minNonzeroFold_spec divDraws rep hpos
  refine ⟨m, hmmem, hmpos, hmmin, ?_⟩
  unfold drawParametersSc at h1
  rw [List.getElem?_map, hk] at h1
  have hrepl := Option.some.inj h1
  rw [← hrepl] at h2
  rw [List.getElem?_map] at h2
  have hlt : rep < reps := by
    by_contra hge
    rw [List.getElem?_eq_none (by simpa using le_of_not_lt hge)] at h2
    simp at h2
  rw [List.getElem?_range hlt] at h2
  have hr := Option.some.inj h2
  intro e he hmig
  rw [← hr] at he
  rw [assignScReplicate_events] at he
  rcases List.mem_map.mp he with ⟨e₀, he₀, hsub⟩
  have hstop : (getMigrationStops reps divDraws).getD rep ⊤ =
      some (⌈(m : ℚ) / 2⌉ : ℤ) := by
    apply getD_eq_of_getElem?
    unfold getMigrationStops
    rw [List.getElem?_map, List.getElem?_range hlt]
    simp only [Option.map_some']
    rw [hmfold]
    rfl
  rw [← hsub]
  cases e₀ with
  | split t d1 d2 anc =>
      rw [← hsub] at hmig
      simp [scEventSub, DemoEvent.daughters?] at hmig
  | migRateChange t s d r =>
      simp only [scEventSub, DemoEvent.time]
      rw [hstop]
      rfl
  | symMigRateChange t p1 p2 r =>
      simp only [scEventSub, DemoEvent.time]
      rw [hstop]
      rfl

/-- C7 witness: the secondary-contact model of the three-leaf tree, one
replicate, draws `T_X = T_R = 500`: the smallest positive divergence time
is 500 and the migration event's stop time is 250. -/
theorem c7_witness :
    ∃ m : ℤ,
      m ∈ divVals (drawDivergenceTimes 1 uDiv3 divPriors3
        (scModel3.populations.map (·.name)) scModel3.events) 0 ∧ 0 < m ∧
      (∀ v ∈ divVals (drawDivergenceTimes 1 uDiv3 divPriors3
        (scModel3.populations.map (·.name)) scModel3.events) 0, 0 < v → m ≤ v) ∧
      ∀ e ∈ (((drawParametersSc 1 uZero uDiv3 (fun _ _ => 0) (0, 1/100) popPriors4
          divPriors3 false [scModel3]).getD 0 []).getD 0 ⟨[], [], []⟩).events,
        (e.daughters?).isSome → e.time = (((⌈(m : ℚ) / 2⌉ : ℤ) : ℚ) : WithTop ℚ) :=
  c7_sc_stop_times 1 uZero uDiv3 (fun _ _ => 0) (0, 1/100) popPriors4 divPriors3
    false [scModel3] 0 0 scModel3
    ((drawParametersSc 1 uZero uDiv3 (fun _ _ => 0) (0, 1/100) popPriors4
      divPriors3 false [scModel3]).getD 0 [])
    (((drawParametersSc 1 uZero uDiv3 (fun _ _ => 0) (0, 1/100) popPriors4
      divPriors3 false [scModel3]).getD 0 []).getD 0 ⟨[], [], []⟩)
    rfl (by with_unfolding_all rfl) (by with_unfolding_all rfl)
    (by with_unfolding_all decide)

/-! ## Reader dependency order (C3) -/

theorem depValue_some (divs : List SchemaDiv) (d : SchemaDiv) (q : String)
    (h : depValue divs d = some q) :
    ∃ d2 ∈ divs, (d2.ancestral = d.derived1 ∨ d2.ancestral = d.derived2) ∧
      d2.ancestral = q := by
  unfold depValue at h
  suffices H : ∀ (l : List SchemaDiv) (init : Option String),
      l.foldl (fun r d2 =>
        if d2.ancestral = d.derived1 ∨ d2.ancestral = d.derived2
        then some d2.ancestral else r) init = some q →
      init = some q ∨
        ∃ d2 ∈ l, (d2.ancestral = d.derived1 ∨ d2.ancestral = d.derived2) ∧
          d2.ancestral = q by
    rcases H divs none h with h' | h'
    · exact absurd h' (by simp)
    · exact h'
  intro l
  induction l with
  | nil => exact fun init h => Or.inl h
  | cons d2 t ih =>
    intro init h
    rw [List.foldl_cons] at h
    rcases ih _ h with h' | h'
    · by_cases hc : d2.ancestral = d.derived1 ∨ d2.ancestral = d.derived2
      · rw [if_pos hc] at h'
        exact Or.inr ⟨d2, List.mem_cons_self .., hc, Option.some.inj h'⟩
      · rw [if_neg hc] at h'
        exact Or.inl h'
    · obtain ⟨d3, hd3, hcond, hanc⟩ := h'
      exact Or.inr ⟨d3, List.mem_cons_of_mem _ hd3, hcond, hanc⟩

theorem lookup_depBuild_skip (divsAll : List SchemaDiv) (l : List SchemaDiv)
    (a : String) (h : ∀ d' ∈ l, d'.ancestral ≠ a) : ∀ acc,
    lookupA (l.foldl (fun acc x => updateA acc x.ancestral (depValue divsAll x)) acc) a =
      lookupA acc a := by
  induction l with
  | nil => exact fun _ => rfl
  | cons d' t ih =>
    intro acc
    rw [List.foldl_cons, ih (fun x hx => h x (List.mem_cons_of_mem _ hx)),
      lookupA_updateA_ne _ _ _ _ (Ne.symm (h d' (List.mem_cons_self ..)))]

theorem lookup_depBuild (divsAll : List SchemaDiv) (l₁ l₂ : List SchemaDiv)
    (d : SchemaDiv) (hafter : ∀ d' ∈ l₂, d'.ancestral ≠ d.ancestral) (acc : List (String × Option String)) :
    lookupA ((l₁ ++ d :: l₂).foldl
      (fun acc x => updateA acc x.ancestral (depValue divsAll x)) acc) d.ancestral =
      some (depValue divsAll d) := by
  rw [List.foldl_append, List.foldl_cons, lookup_depBuild_skip divsAll l₂ _ hafter]
  exact lookupA_updateA_self ..

theorem lookup_divDeps (divs : List SchemaDiv) (d : SchemaDiv) (hd : d ∈ divs)
    (hnodup : (divs.map (·.ancestral)).Nodup) :
    lookupA (divergenceDependencies divs) d.ancestral = some (depValue divs d) := by
  obtain ⟨l₁, l₂, hsplit⟩ := List.append_of_mem hd
  have hafter : ∀ d' ∈ l₂, d'.ancestral ≠ d.ancestral := by
    intro d' hd' heq
    rw [hsplit, List.map_append, List.map_cons] at hnodup
    rcases List.nodup_cons.mp (List.nodup_append.mp hnodup).2.1 with ⟨hnotin, _⟩
    exact hnotin (heq ▸ List.mem_map_of_mem _ hd')
  unfold divergenceDependencies
  rw [hsplit]
  exact lookup_depBuild (l₁ ++ d :: l₂) l₁ l₂ d hafter []

theorem orderPass_complete (divs : List SchemaDiv)
    (hnodup : (divs.map (·.ancestral)).Nodup) :
    ∀ (rest pref : List SchemaDiv),
      divs = pref ++ rest →
      depOrderedB divs (pref.map (·.ancestral)) rest = true →
      rest.foldl (passStep (divergenceDependencies divs))
          (pref, pref.map (·.ancestral)) =
        (divs, divs.map (·.ancestral)) := by
  intro rest
  induction rest with
  | nil =>
    intro pref hsplit _
    rw [List.foldl_nil, hsplit, List.append_nil]
  | cons d t ih =>
    intro pref hsplit hord
    rw [List.foldl_cons]
    unfold depOrderedB at hord
    rw [Bool.and_eq_true] at hord
    obtain ⟨hord1, hord2⟩ := hord
    have hd_in : d ∈ divs := by
      rw [hsplit]
      exact List.mem_append.mpr (Or.inr (List.mem_cons_self ..))
    have hanc_notin : d.ancestral ∉ pref.map (·.ancestral) := by
      intro hmem
      rw [hsplit, List.map_append, List.map_cons] at hnodup
      exact (List.nodup_append.mp hnodup).2.2 hmem (List.mem_cons_self ..)
    have hstep : passStep (divergenceDependencies divs)
        (pref, pref.map (·.ancestral)) d =
        (pref ++ [d], (pref ++ [d]).map (·.ancestral)) := by
      unfold passStep
      rw [lookup_divDeps divs d hd_in hnodup, Option.getD_some]
      cases hdv : depValue divs d with
      | none =>
        dsimp only
        rw [if_pos hanc_notin, List.map_append]
        rfl
      | some q =>
        have hin : q ∈ pref.map (·.ancestral) := by
          obtain ⟨d2, hd2, hcond, hq⟩ := depValue_some divs d q hdv
          have h2 := List.all_eq_true.mp hord1 d2 hd2
          simp only [Bool.or_eq_true, Bool.not_eq_true', decide_eq_true_eq,
            decide_eq_false_iff_not] at h2
          rcases h2 with h2 | h2
          · exact absurd hcond h2
          · exact hq ▸ h2
        dsimp only
        rw [if_pos ⟨hin, hanc_notin⟩, List.map_append]
        rfl
    rw [hstep]
    refine ih (pref ++ [d]) ?_ ?_
    · rw [hsplit, List.append_assoc]
      rfl
    · rw [List.map_append]
      exact hord2

theorem orderLoop_succ (divs : List SchemaDiv) (deps : List (String × Option String))
    (f : ℕ) (st : List SchemaDiv × List String) :
    orderLoop divs deps (f + 1) st =
      if st.1.length < divs.length then orderLoop divs deps f (orderPass divs deps st)
      else some st.1 := rfl

theorem readerOrder_id (divs : List SchemaDiv)
    (hnodup : (divs.map (·.ancestral)).Nodup)
    (hord : depOrderedB divs [] divs = true) :
    readerOrder divs = some divs := by
  have hpass : orderPass divs (divergenceDependencies divs) ([], []) =
      (divs, divs.map (·.ancestral)) := by
    unfold orderPass
    exact orderPass_complete divs hnodup divs [] rfl hord
  unfold readerOrder
  rcases hd : divs with _ | ⟨d0, t⟩
  · rfl
  · rw [← hd, orderLoop_succ]
    have hlen : 0 < divs.length := by rw [hd]; simp
    rw [if_pos (by simpa using hlen), hpass]
    obtain ⟨f, hf⟩ : ∃ f, divs.length = f + 1 := ⟨t.length, by rw [hd]; rfl⟩
    rw [hf, orderLoop_succ, if_neg (by simp [← hf])]

theorem writerDivs_map_anc (events : List DemoEvent) :
    (writerDivs events).map (·.ancestral) = ancNames events := by
  induction events with
  | nil => rfl
  | cons e t ih =>
    cases e <;> simp [writerDivs, ancNames, DemoEvent.ancestral?] at ih ⊢ <;>
      simpa [writerDivs, ancNames] using ih

/-- C3: when the persisted divergence list is dependency-ordered with
distinct ancestral labels — which is what the writer emits, since the
builder constructs split events children-before-parents — the reader's
reconstructed sampling order is exactly the schema list itself, i.e. the
same order in which the in-memory sampler (`_draw_divergence_times`,
which walks the event list) drew the times. -/
theorem c3_reader_order_matches_sampler (events : List DemoEvent)
    (hnodup : ((writerDivs events).map (·.ancestral)).Nodup)
    (hord : depOrderedB (writerDivs events) [] (writerDivs events) = true) :
    readerOrder (writerDivs events) = some (writerDivs events) ∧
    (writerDivs events).map (·.ancestral) = ancNames events :=
  ⟨readerOrder_id _ hnodup hord, writerDivs_map_anc events⟩

/-- C3 witness: the divergence list written for the fully resolved
balanced-tree model round-trips through the reader in the builder's
sampling order. -/
theorem c3_witness :
    readerOrder (writerDivs fullModel4.events) = some (writerDivs fullModel4.events) ∧
    (writerDivs fullModel4.events).map (·.ancestral) = ancNames fullModel4.events :=
  c3_reader_order_matches_sampler fullModel4.events (by decide) (by decide)

/-! ## Gene-flow migration starts (C8) -/

theorem lookup_appendA_self {κ : Type} [DecidableEq κ]
    (m : List (κ × List ℚ)) (k : κ) (v : ℚ) :
    lookupA (appendA m k v) k = some ((lookupA m k).getD [] ++ [v]) := by
  unfold appendA
  cases h : lookupA m k with
  | none => rw [lookupA_updateA_self]; rfl
  | some l => rw [lookupA_updateA_self]; rfl

theorem lookup_appendA_ne {κ : Type} [DecidableEq κ]
    (m : List (κ × List ℚ)) (k k' : κ) (v : ℚ) (h : k' ≠ k) :
    lookupA (appendA m k v) k' = lookupA m k' := by
  unfold appendA
  cases lookupA m k <;> exact lookupA_updateA_ne _ _ _ _ h

theorem lookup_innerFold (divDraws : List (String × List ℤ))
    (popKeys : List (String × ℕ)) (events : List DemoEvent) (rep : ℕ)
    (k : ℕ × ℕ) : ∀ (l : List DemoEvent) (dict : List ((ℕ × ℕ) × List ℚ)),
    lookupA (l.foldl (startInner divDraws popKeys events rep) dict) k =
      if (startOccOn divDraws popKeys events rep k l).isEmpty then lookupA dict k
      else some ((lookupA dict k).getD [] ++ startOccOn divDraws popKeys events rep k l) := by
  intro l
  induction l with
  | nil => intro dict; rfl
  | cons e t ih =>
    intro dict
    rw [List.foldl_cons]
    cases hd : e.daughters? with
    | none =>
      have hstep : startInner divDraws popKeys events rep dict e = dict := by
        unfold startInner; rw [hd]
      have hocc : startOccOn divDraws popKeys events rep k (e :: t) =
          startOccOn divDraws popKeys events rep k t := by
        unfold startOccOn
        rw [List.filterMap_cons]
        rw [hd]
      rw [hstep, hocc]
      exact ih dict
    | some p =>
      obtain ⟨d1, d2⟩ := p
      set ke := ((lookupA popKeys d1).getD 0, (lookupA popKeys d2).getD 0) with hke
      set v := dwgStartValue events divDraws rep d1 d2 with hv
      have hstep : startInner divDraws popKeys events rep dict e = appendA dict ke v := by
        unfold startInner; rw [hd]
      by_cases hkk : ke = k
      · have hocc : startOccOn divDraws popKeys events rep k (e :: t) =
            v :: startOccOn divDraws popKeys events rep k t := by
          unfold startOccOn
          rw [List.filterMap_cons, hd]
          dsimp only
          rw [if_pos hkk]
        rw [hstep, hocc, ih (appendA dict ke v)]
        subst hkk
        rw [lookup_appendA_self]
        by_cases ht : (startOccOn divDraws popKeys events rep ke t).isEmpty
        · rw [if_pos ht, if_neg (by simp)]
          have : startOccOn divDraws popKeys events rep ke t = [] := by
            simpa using ht
          rw [this]
        · rw [if_neg ht, if_neg (by simp)]
          rw [Option.getD_some, List.append_assoc]
          rfl
      · have hocc : startOccOn divDraws popKeys events rep k (e :: t) =
            startOccOn divDraws popKeys events rep k t := by
          unfold startOccOn
          rw [List.filterMap_cons, hd]
          dsimp only
          rw [if_neg hkk]
        rw [hstep, hocc, ih (appendA dict ke v), lookup_appendA_ne _ _ _ _ (Ne.symm hkk)]
      
theorem mem_rateKeys (events : List DemoEvent) (popKeys : List (String × ℕ))
    (e : DemoEvent) (he : e ∈ events) (d1 d2 : String)
    (hd : e.daughters? = some (d1, d2)) :
    ((lookupA popKeys d1).getD 0, (lookupA popKeys d2).getD 0) ∈ rateKeys events popKeys := by
  unfold rateKeys
  exact List.mem_filterMap.mpr ⟨e, he, by rw [hd]; rfl⟩

theorem occ_nil_of_not_mem (divDraws : List (String × List ℤ))
    (popKeys : List (String × ℕ)) (events : List DemoEvent) (rep : ℕ)
    (k : ℕ × ℕ) (l : List DemoEvent) (h : k ∉ rateKeys l popKeys) :
    startOccOn divDraws popKeys events rep k l = [] := by
  unfold startOccOn
  rw [List.filterMap_eq_nil_iff]
  intro e he
  cases hd : e.daughters? with
  | none => rfl
  | some p =>
    obtain ⟨d1, d2⟩ := p
    dsimp only
    rw [if_neg]
    intro hk
    exact h (hk ▸ mem_rateKeys l popKeys e he d1 d2 hd)

theorem occ_singleton (divDraws : List (String × List ℤ))
    (popKeys : List (String × ℕ)) (events : List DemoEvent) (rep : ℕ)
    (e : DemoEvent) (d1 d2 : String) (hd : e.daughters? = some (d1, d2)) :
    ∀ l : List DemoEvent, (rateKeys l popKeys).Nodup → e ∈ l →
    startOccOn divDraws popKeys events rep
        ((lookupA popKeys d1).getD 0, (lookupA popKeys d2).getD 0) l =
      [dwgStartValue events divDraws rep d1 d2] := by
  intro l
  induction l with
  | nil => intro _ he; exact absurd he (List.not_mem_nil _)
  | cons h0 t ih =>
    intro hnodup he
    rcases List.mem_cons.mp he with heq | ht
    · subst heq
      have hkeys : rateKeys (e :: t) popKeys =
          ((lookupA popKeys d1).getD 0, (lookupA popKeys d2).getD 0) :: rateKeys t popKeys := by
        unfold rateKeys
        rw [List.filterMap_cons, hd]
        rfl
      rw [hkeys] at hnodup
      have hnotin := (List.nodup_cons.mp hnodup).1
      unfold startOccOn
      rw [List.filterMap_cons, hd]
      dsimp only
      rw [if_pos rfl]
      have := occ_nil_of_not_mem divDraws popKeys events rep _ t hnotin
      unfold startOccOn at this
      rw [this]
    · cases hd0 : h0.daughters? with
      | none =>
        have hkeys : rateKeys (h0 :: t) popKeys = rateKeys t popKeys := by
          unfold rateKeys
          rw [List.filterMap_cons, hd0]
          rfl
        rw [hkeys] at hnodup
        have hocc : startOccOn divDraws popKeys events rep
            ((lookupA popKeys d1).getD 0, (lookupA popKeys d2).getD 0) (h0 :: t) =
            startOccOn divDraws popKeys events rep
              ((lookupA popKeys d1).getD 0, (lookupA popKeys d2).getD 0) t := by
          unfold startOccOn
          rw [List.filterMap_cons, hd0]
        rw [hocc]
        exact ih hnodup ht
      | some p =>
        obtain ⟨e1, e2⟩ := p
        have hkeys : rateKeys (h0 :: t) popKeys =
            ((lookupA popKeys e1).getD 0, (lookupA popKeys e2).getD 0) :: rateKeys t popKeys := by
          unfold rateKeys
          rw [List.filterMap_cons, hd0]
          rfl
        rw [hkeys] at hnodup
        obtain ⟨hnotin, hnodup'⟩ := List.nodup_cons.mp hnodup
        have hne : ((lookupA popKeys e1).getD 0, (lookupA popKeys e2).getD 0) ≠
            ((lookupA popKeys d1).getD 0, (lookupA popKeys d2).getD 0) := by
          intro hk
          exact hnotin (hk ▸ mem_rateKeys t popKeys e ht d1 d2 hd)
        have hocc : startOccOn divDraws popKeys events rep
            ((lookupA popKeys d1).getD 0, (lookupA popKeys d2).getD 0) (h0 :: t) =
            startOccOn divDraws popKeys events rep
              ((lookupA popKeys d1).getD 0, (lookupA popKeys d2).getD 0) t := by
          unfold startOccOn
          rw [List.filterMap_cons, hd0]
          dsimp only
          rw [if_neg hne]
        rw [hocc]
        exact ih hnodup' ht

/-- C8: for every migration event of a gene-flow model (with distinct
population-index keys, as eligibility produces) and every replicate, the
start time `_get_migration_starts` samples is exactly
`(Tanc − max(Td1, Td2))/2 + max(Td1, Td2)`, where `Tanc` is the drawn
divergence time of the last split event containing both daughters. -/
theorem c8_dwg_migration_starts (reps : ℕ) (model : Demography)
    (divDraws : List (String × List ℤ)) (popKeys : List (String × ℕ))
    (e : DemoEvent) (he : e ∈ model.events) (d1 d2 : String)
    (hd : e.daughters? = some (d1, d2))
    (hnodup : (rateKeys model.events popKeys).Nodup)
    (anc : String) (hanc : ancestorFor model.events d1 d2 = some anc) :
    (lookupA (getMigrationStarts reps model divDraws popKeys)
        ((lookupA popKeys d1).getD 0, (lookupA popKeys d2).getD 0)).getD [] =
      (List.range reps).map (fun rep =>
        ((timeAt divDraws anc rep -
            max (timeAt divDraws d1 rep) (timeAt divDraws d2 rep)) / 2) +
          max (timeAt divDraws d1 rep) (timeAt divDraws d2 rep)) := by
  have hval : ∀ rep, dwgStartValue model.events divDraws rep d1 d2 =
      ((timeAt divDraws anc rep -
          max (timeAt divDraws d1 rep) (timeAt divDraws d2 rep)) / 2) +
        max (timeAt divDraws d1 rep) (timeAt divDraws d2 rep) := by
    intro rep
    unfold dwgStartValue
    rw [hanc]
    rfl
  unfold getMigrationStarts
  suffices H : ∀ n : ℕ,
      (lookupA ((List.range n).foldl (fun dict rep =>
          model.events.foldl (startInner divDraws popKeys model.events rep) dict) [])
        ((lookupA popKeys d1).getD 0, (lookupA popKeys d2).getD 0)).getD [] =
      (List.range n).map (fun rep => dwgStartValue model.events divDraws rep d1 d2) by
    rw [H reps]
    exact List.map_congr_left (fun rep _ => hval rep)
  intro n
  induction n with
  | zero => rfl
  | succ n ihn =>
    rw [List.range_succ, List.foldl_append, List.foldl_cons, List.foldl_nil,
      List.map_append]
    rw [lookup_innerFold]
    rw [occ_singleton divDraws popKeys model.events n e d1 d2 hd model.events hnodup he]
    rw [if_neg (by simp)]
    rw [Option.getD_some, ihn]
    rfl

/-- C8 witness: the three-leaf gene-flow model with pair `(A, B)`,
ancestor `X` drawn at 1000 and both daughters at 0: the start time is
exactly 500, the concrete example of the claim. -/
theorem c8_witness :
    (lookupA (getMigrationStarts 1 dwgModel3
        [("A", [0]), ("B", [0]), ("X", [1000]), ("C", [0]), ("R", [1500])]
        [("A", 0), ("B", 1), ("X", 2), ("C", 3), ("R", 4)])
      ((lookupA [("A", 0), ("B", 1), ("X", 2), ("C", 3), ("R", 4)] "A").getD 0,
       (lookupA [("A", 0), ("B", 1), ("X", 2), ("C", 3), ("R", 4)] "B").getD 0)).getD [] =
    (List.range 1).map (fun rep =>
      ((timeAt [("A", [0]), ("B", [0]), ("X", [1000]), ("C", [0]), ("R", [1500])] "X" rep -
          max (timeAt [("A", [0]), ("B", [0]), ("X", [1000]), ("C", [0]), ("R", [1500])] "A" rep)
            (timeAt [("A", [0]), ("B", [0]), ("X", [1000]), ("C", [0]), ("R", [1500])] "B" rep)) / 2) +
        max (timeAt [("A", [0]), ("B", [0]), ("X", [1000]), ("C", [0]), ("R", [1500])] "A" rep)
          (timeAt [("A", [0]), ("B", [0]), ("X", [1000]), ("C", [0]), ("R", [1500])] "B" rep)) :=
  c8_dwg_migration_starts 1 dwgModel3
    [("A", [0]), ("B", [0]), ("X", [1000]), ("C", [0]), ("R", [1500])]
    [("A", 0), ("B", 1), ("X", 2), ("C", 3), ("R", 4)]
    (DemoEvent.migRateChange 100 "A" "B" (1/1000)) (by with_unfolding_all decide)
    "A" "B" rfl (by with_unfolding_all decide) "X" (by with_unfolding_all decide)

/-! ## Divergence-time dependency invariant (C5) -/

/-- Invariant of the divergence-time dictionary: every stored vector has
one entry per replicate, and all entries are non-negative and bounded by
the cap of their population. -/
def DrawsOK (reps : ℕ) (cap : String → ℤ) (m : List (String × List ℤ)) : Prop :=
  ∀ k l, lookupA m k = some l →
    l.length = reps ∧ ∀ i : ℕ, 0 ≤ l.getD i 0 ∧ l.getD i 0 ≤ cap k

/-- The key set of the divergence-time dictionary after processing a
prefix of the event list: the non-ancestral populations plus the
ancestral labels of the processed events. -/
def KeysAre (pops : List String) (events : List DemoEvent)
    (pref : List DemoEvent) (m : List (String × List ℤ)) : Prop :=
  ∀ k, (lookupA m k).isSome ↔
    (k ∈ nonAncNames pops events ∨ k ∈ ancNames pref)

theorem lookupA_singleton {κ α : Type} [DecidableEq κ] (k0 k : κ) (v : α) :
    lookupA [(k0, v)] k = if k = k0 then some v else none := by
  unfold lookupA
  rcases Decidable.em (k = k0) with h | h
  · subst h
    rw [List.find?_cons_of_pos _ (by simp)]
    simp
  · rw [List.find?_cons_of_neg _ (by simpa using fun hh : k0 = k => h hh.symm)]
    simp [h]

theorem lookupA_snoc {κ α : Type} [DecidableEq κ] (m : List (κ × α)) (k0 k : κ)
    (v : α) :
    lookupA (m ++ [(k0, v)]) k =
      if (lookupA m k).isSome then lookupA m k
      else if k = k0 then some v else none := by
  rw [lookupA_append, lookupA_singleton]

theorem getD_replicate_zero (n i : ℕ) : (List.replicate n (0 : ℤ)).getD i 0 = 0 := by
  rcases lt_or_ge i n with h | h
  · rw [List.getD_eq_getElem _ _ (by simpa using h), List.getElem_replicate]
  · rw [List.getD_eq_default _ _ (by simpa using h)]

theorem getElem?_zipWith' {α β γ : Type} (f : α → β → γ) :
    ∀ (l1 : List α) (l2 : List β) (i : ℕ) (a : α) (b : β),
    l1[i]? = some a → l2[i]? = some b → (List.zipWith f l1 l2)[i]? = some (f a b) := by
  intro l1
  induction l1 with
  | nil => intro l2 i a b h; simp at h
  | cons x t ih =>
    intro l2 i a b h1 h2
    cases l2 with
    | nil => simp at h2
    | cons y t2 =>
      cases i with
      | zero =>
        simp only [List.getElem?_cons_zero] at h1 h2
        rw [List.zipWith_cons_cons]
        simp [Option.some.inj h1, Option.some.inj h2]
      | succ j =>
        simp only [List.getElem?_cons_succ] at h1 h2
        rw [List.zipWith_cons_cons]
        simpa using ih t2 j a b h1 h2

theorem divTimeStep_skip (reps : ℕ) (u : String → ℕ → ℚ)
    (divPriors : String → ℤ × ℤ) (acc : List (String × List ℤ)) (e : DemoEvent)
    (h : e.ancestral? = none) : divTimeStep reps u divPriors acc e = acc := by
  cases e with
  | split t d1 d2 anc => simp [DemoEvent.ancestral?] at h
  | migRateChange t s d r => rfl
  | symMigRateChange t p1 p2 r => rfl

theorem lookup_divTimeStep_ne (reps : ℕ) (u : String → ℕ → ℚ)
    (divPriors : String → ℤ × ℤ) (acc : List (String × List ℤ)) (e : DemoEvent)
    (k : String) (h : ∀ a, e.ancestral? = some a → a ≠ k) :
    lookupA (divTimeStep reps u divPriors acc e) k = lookupA acc k := by
  cases e with
  | split t d1 d2 anc =>
    have hne : k ≠ anc := Ne.symm (h anc rfl)
    show lookupA (if t ≠ 0 then _ else updateA acc anc (List.replicate reps 0)) k = _
    split
    · exact lookupA_updateA_ne _ _ _ _ hne
    · exact lookupA_updateA_ne _ _ _ _ hne
  | migRateChange t s d r => rfl
  | symMigRateChange t p1 p2 r => rfl

theorem lookup_fold_stable (reps : ℕ) (u : String → ℕ → ℚ)
    (divPriors : String → ℤ × ℤ) (k : String) :
    ∀ (l : List DemoEvent) (acc : List (String × List ℤ)),
    k ∉ ancNames l →
    lookupA (l.foldl (divTimeStep reps u divPriors) acc) k = lookupA acc k := by
  intro l
  induction l with
  | nil => intro acc _; rfl
  | cons e t ih =>
    intro acc hk
    have hk_t : k ∉ ancNames t := fun hmem => hk (by
      unfold ancNames at hmem ⊢
      rw [List.filterMap_cons]
      cases he : e.ancestral? with
      | none => exact hmem
      | some a => exact List.mem_cons_of_mem _ hmem)
    rw [List.foldl_cons, ih _ hk_t, lookup_divTimeStep_ne]
    intro a ha heq
    apply hk
    unfold ancNames
    rw [List.filterMap_cons, ha, heq]
    exact List.mem_cons_self ..

theorem ancNames_append (l1 l2 : List DemoEvent) :
    ancNames (l1 ++ l2) = ancNames l1 ++ ancNames l2 := by
  unfold ancNames
  exact List.filterMap_append ..

theorem ancNames_split_cons (t : WithTop ℚ) (d1 d2 anc : String)
    (l : List DemoEvent) :
    ancNames (DemoEvent.split t d1 d2 anc :: l) = anc :: ancNames l := rfl

theorem ancNames_nonsplit_cons (e : DemoEvent) (l : List DemoEvent)
    (h : e.ancestral? = none) : ancNames (e :: l) = ancNames l := by
  unfold ancNames
  rw [List.filterMap_cons, h]

theorem depClosedB_prefix (pops : List String) (events : List DemoEvent) :
    ∀ (p q : List DemoEvent) (seen : List String),
    depClosedB pops events seen (p ++ q) = true →
    depClosedB pops events seen p = true := by
  intro p
  induction p with
  | nil => intro q seen _; rfl
  | cons e t ih =>
    intro q seen h
    cases e with
    | split tt d1 d2 anc =>
      rw [List.cons_append] at h
      unfold depClosedB at h ⊢
      rw [Bool.and_eq_true] at h ⊢
      exact ⟨h.1, ih q _ h.2⟩
    | migRateChange tt s d r =>
      rw [List.cons_append] at h
      unfold depClosedB at h ⊢
      exact ih q _ h
    | symMigRateChange tt p1 p2 r =>
      rw [List.cons_append] at h
      unfold depClosedB at h ⊢
      exact ih q _ h

theorem depClosedB_suffix (pops : List String) (events : List DemoEvent) :
    ∀ (p q : List DemoEvent) (seen : List String),
    depClosedB pops events seen (p ++ q) = true →
    depClosedB pops events (seen ++ ancNames p) q = true := by
  intro p
  induction p with
  | nil => intro q seen h; simpa [ancNames] using h
  | cons e t ih =>
    intro q seen h
    cases e with
    | split tt d1 d2 anc =>
      rw [List.cons_append] at h
      unfold depClosedB at h
      rw [Bool.and_eq_true] at h
      have := ih q (seen ++ [anc]) h.2
      rw [ancNames_split_cons, List.append_assoc] at *
      simpa using this
    | migRateChange tt s d r =>
      rw [List.cons_append] at h
      unfold depClosedB at h
      have := ih q seen h
      rwa [ancNames_nonsplit_cons (DemoEvent.migRateChange tt s d r) t rfl]
    | symMigRateChange tt p1 p2 r =>
      rw [List.cons_append] at h
      unfold depClosedB at h
      have := ih q seen h
      rwa [ancNames_nonsplit_cons (DemoEvent.symMigRateChange tt p1 p2 r) t rfl]

theorem lookupA_const_map (l : List String) (f : String → List ℤ) (k : String) :
    lookupA (l.map (fun n => (n, f n))) k = if k ∈ l then some (f k) else none := by
  induction l with
  | nil => simp [lookupA]
  | cons n t ih =>
    by_cases h : n = k
    · subst h
      unfold lookupA
      rw [List.map_cons, List.find?_cons_of_pos _ (by simp)]
      simp
    · unfold lookupA at *
      rw [List.map_cons, List.find?_cons_of_neg _ (by simpa using h)]
      rw [ih]
      by_cases hk : k ∈ t
      · rw [if_pos hk, if_pos (List.mem_cons_of_mem _ hk)]
      · rw [if_neg hk, if_neg (by
          simp only [List.mem_cons]
          rintro (hh | hh)
          · exact h hh.symm
          · exact hk hh)]

theorem initDraws_inv (reps : ℕ) (cap : String → ℤ) (pops : List String)
    (events : List DemoEvent) (hcap : ∀ n, 0 ≤ cap n) :
    KeysAre pops events [] (initDraws reps pops events) ∧
    DrawsOK reps cap (initDraws reps pops events) := by
  constructor
  · intro k
    unfold initDraws
    rw [lookupA_const_map]
    by_cases h : k ∈ nonAncNames pops events
    · simp [h, ancNames]
    · simp [h, ancNames]
  · intro k l hl
    unfold initDraws at hl
    rw [lookupA_const_map] at hl
    split at hl
    · rw [← Option.some.inj hl]
      exact ⟨List.length_replicate .., fun i =>
        ⟨by rw [getD_replicate_zero], by rw [getD_replicate_zero]; exact hcap k⟩⟩
    · exact absurd hl (by simp)

theorem draws_spec (reps : ℕ) (u' : ℕ → ℚ) (lo hi : ℤ) (l1 l2 : List ℤ)
    (hl1 : l1.length = reps) (hl2 : l2.length = reps) :
    (List.zipWith (fun (m : ℤ) (i : ℕ) => npRound (uniformDraw (m : ℚ) (hi : ℚ) (u' i)))
        ((List.zipWith (fun a b => max a (max b lo)) l1 l2).take reps)
        (List.range reps)).length = reps ∧
    ∀ i, i < reps →
      (List.zipWith (fun (m : ℤ) (i : ℕ) => npRound (uniformDraw (m : ℚ) (hi : ℚ) (u' i)))
        ((List.zipWith (fun a b => max a (max b lo)) l1 l2).take reps)
        (List.range reps)).getD i 0 =
        npRound (uniformDraw ((max (l1.getD i 0) (max (l2.getD i 0) lo) : ℤ) : ℚ) (hi : ℚ) (u' i)) := by
  constructor
  · simp [List.length_zipWith, List.length_take, hl1, hl2]
  · intro i hi'
    have e1 : l1[i]? = some (l1.getD i 0) := by
      rw [List.getD_eq_getElem l1 0 (by omega), List.getElem?_eq_getElem (by omega)]
    have e2 : l2[i]? = some (l2.getD i 0) := by
      rw [List.getD_eq_getElem l2 0 (by omega), List.getElem?_eq_getElem (by omega)]
    have e3 : (List.zipWith (fun a b => max a (max b lo)) l1 l2)[i]? =
        some (max (l1.getD i 0) (max (l2.getD i 0) lo)) :=
      getElem?_zipWith' _ l1 l2 i _ _ e1 e2
    have e4 : ((List.zipWith (fun a b => max a (max b lo)) l1 l2).take reps)[i]? =
        some (max (l1.getD i 0) (max (l2.getD i 0) lo)) := by
      rw [List.getElem?_take, if_pos hi']
      exact e3
    have e5 : (List.range reps)[i]? = some i := by
      simp [List.getElem?_range, hi']
    exact getD_eq_of_getElem? _ _ _ _ (getElem?_zipWith' _ _ _ i _ _ e4 e5)

theorem drawDiv_go (reps : ℕ) (u : String → ℕ → ℚ) (divPriors : String → ℤ × ℤ)
    (cap : String → ℤ) (pops : List String) (events : List DemoEvent)
    (hu : ∀ a r, 0 ≤ u a r ∧ u a r < 1) (hcap : ∀ n, 0 ≤ cap n)
    (hkeys : (nonAncNames pops events ++ ancNames events).Nodup)
    (hev : ∀ e ∈ events, EvOK divPriors cap e) :
    ∀ (rest pref rest' : List DemoEvent),
      events = pref ++ rest ++ rest' →
      depClosedB pops events (ancNames pref) rest = true →
      KeysAre pops events pref
        (pref.foldl (divTimeStep reps u divPriors) (initDraws reps pops events)) →
      DrawsOK reps cap
        (pref.foldl (divTimeStep reps u divPriors) (initDraws reps pops events)) →
      KeysAre pops events (pref ++ rest)
        ((pref ++ rest).foldl (divTimeStep reps u divPriors) (initDraws reps pops events)) ∧
      DrawsOK reps cap
        ((pref ++ rest).foldl (divTimeStep reps u divPriors) (initDraws reps pops events)) := by
  intro rest
  induction rest with
  | nil =>
    intro pref rest' hsplit _ hK hD
    rw [List.append_nil]
    exact ⟨hK, hD⟩
  | cons e rest₂ ih =>
    intro pref rest' hsplit hdep hK hD
    have hstep_eq : (pref ++ [e]).foldl (divTimeStep reps u divPriors)
        (initDraws reps pops events) =
        divTimeStep reps u divPriors
          (pref.foldl (divTimeStep reps u divPriors) (initDraws reps pops events)) e := by
      rw [List.foldl_append, List.foldl_cons, List.foldl_nil]
    have hassoc : pref ++ e :: rest₂ = (pref ++ [e]) ++ rest₂ := by simp
    have hsplit' : events = (pref ++ [e]) ++ rest₂ ++ rest' := by
      rw [hsplit, hassoc]
    cases e with
    | migRateChange tt sr dr rr =>
      have hanc_nil : ancNames (pref ++ [DemoEvent.migRateChange tt sr dr rr]) =
          ancNames pref := by
        rw [ancNames_append]
        simp [ancNames, DemoEvent.ancestral?]
      have hK' : KeysAre pops events (pref ++ [DemoEvent.migRateChange tt sr dr rr])
          ((pref ++ [DemoEvent.migRateChange tt sr dr rr]).foldl
            (divTimeStep reps u divPriors) (initDraws reps pops events)) := by
        rw [hstep_eq,
          divTimeStep_skip reps u divPriors _ (DemoEvent.migRateChange tt sr dr rr) rfl]
        intro k
        rw [hanc_nil]
        exact hK k
      have hD' : DrawsOK reps cap
          ((pref ++ [DemoEvent.migRateChange tt sr dr rr]).foldl
            (divTimeStep reps u divPriors) (initDraws reps pops events)) := by
        rw [hstep_eq,
          divTimeStep_skip reps u divPriors _ (DemoEvent.migRateChange tt sr dr rr) rfl]
        exact hD
      have hdep' : depClosedB pops events
          (ancNames (pref ++ [DemoEvent.migRateChange tt sr dr rr])) rest₂ = true := by
        rw [hanc_nil]
        unfold depClosedB at hdep
        exact hdep
      rw [show pref ++ DemoEvent.migRateChange tt sr dr rr :: rest₂ =
        (pref ++ [DemoEvent.migRateChange tt sr dr rr]) ++ rest₂ from by simp]
      exact ih (pref ++ [DemoEvent.migRateChange tt sr dr rr]) rest' hsplit' hdep' hK' hD'
    | symMigRateChange tt p1 p2 rr =>
      have hanc_nil : ancNames (pref ++ [DemoEvent.symMigRateChange tt p1 p2 rr]) =
          ancNames pref := by
        rw [ancNames_append]
        simp [ancNames, DemoEvent.ancestral?]
      have hK' : KeysAre pops events (pref ++ [DemoEvent.symMigRateChange tt p1 p2 rr])
          ((pref ++ [DemoEvent.symMigRateChange tt p1 p2 rr]).foldl
            (divTimeStep reps u divPriors) (initDraws reps pops events)) := by
        rw [hstep_eq,
          divTimeStep_skip reps u divPriors _ (DemoEvent.symMigRateChange tt p1 p2 rr) rfl]
        intro k
        rw [hanc_nil]
        exact hK k
      have hD' : DrawsOK reps cap
          ((pref ++ [DemoEvent.symMigRateChange tt p1 p2 rr]).foldl
            (divTimeStep reps u divPriors) (initDraws reps pops events)) := by
        rw [hstep_eq,
          divTimeStep_skip reps u divPriors _ (DemoEvent.symMigRateChange tt p1 p2 rr) rfl]
        exact hD
      have hdep' : depClosedB pops events
          (ancNames (pref ++ [DemoEvent.symMigRateChange tt p1 p2 rr])) rest₂ = true := by
        rw [hanc_nil]
        unfold depClosedB at hdep
        exact hdep
      rw [show pref ++ DemoEvent.symMigRateChange tt p1 p2 rr :: rest₂ =
        (pref ++ [DemoEvent.symMigRateChange tt p1 p2 rr]) ++ rest₂ from by simp]
      exact ih (pref ++ [DemoEvent.symMigRateChange tt p1 p2 rr]) rest' hsplit' hdep' hK' hD'
    | split tt d1 d2 anc =>
      have hanc_cons : ancNames (pref ++ [DemoEvent.split tt d1 d2 anc]) =
          ancNames pref ++ [anc] := by
        rw [ancNames_append]
        rfl
      -- freshness of anc
      have hnd2 : (ancNames events).Nodup := (List.nodup_append.mp hkeys).2.1
      have hanc_struct : ancNames events =
          (ancNames pref ++ anc :: ancNames rest₂) ++ ancNames rest' := by
        rw [hsplit, ancNames_append, ancNames_append, ancNames_split_cons]
      have hanc_mem : anc ∈ ancNames events := by
        rw [hanc_struct]
        exact List.mem_append_left _ (List.mem_append_right _ (List.mem_cons_self ..))
      have hanc_pref : anc ∉ ancNames pref := by
        rw [hanc_struct] at hnd2
        have hnd3 := (List.nodup_append.mp hnd2).1
        exact fun hmem => (List.nodup_append.mp hnd3).2.2 hmem (List.mem_cons_self ..)
      have hanc_nonanc : anc ∉ nonAncNames pops events :=
        fun hmem => (List.nodup_append.mp hkeys).2.2 hmem hanc_mem
      set m₁ := pref.foldl (divTimeStep reps u divPriors) (initDraws reps pops events)
        with hm₁
      have hfresh : lookupA m₁ anc = none := by
        rcases hl : lookupA m₁ anc with _ | v
        · rfl
        · have := (hK anc).mp (by rw [hl]; rfl)
          rcases this with h | h
          · exact absurd h hanc_nonanc
          · exact absurd h hanc_pref
      have he_mem : DemoEvent.split tt d1 d2 anc ∈ events := by
        rw [hsplit]
        exact List.mem_append_left _ (List.mem_append_right _ (List.mem_cons_self ..))
      -- the dependency-check head
      unfold depClosedB at hdep
      rw [Bool.and_eq_true] at hdep
      obtain ⟨hdep_head, hdep_tail⟩ := hdep
      -- common continuation once the one-step invariants are established
      have hcont : ∀ v : List ℤ,
          v.length = reps →
          (∀ i : ℕ, 0 ≤ v.getD i 0 ∧ v.getD i 0 ≤ cap anc) →
          divTimeStep reps u divPriors m₁ (DemoEvent.split tt d1 d2 anc) =
            m₁ ++ [(anc, v)] →
          KeysAre pops events ((pref ++ [DemoEvent.split tt d1 d2 anc]) ++ rest₂)
            (((pref ++ [DemoEvent.split tt d1 d2 anc]) ++ rest₂).foldl
              (divTimeStep reps u divPriors) (initDraws reps pops events)) ∧
          DrawsOK reps cap
            (((pref ++ [DemoEvent.split tt d1 d2 anc]) ++ rest₂).foldl
              (divTimeStep reps u divPriors) (initDraws reps pops events)) := by
        intro v hvlen hvbounds hstepv
        have hK' : KeysAre pops events (pref ++ [DemoEvent.split tt d1 d2 anc])
            ((pref ++ [DemoEvent.split tt d1 d2 anc]).foldl
              (divTimeStep reps u divPriors) (initDraws reps pops events)) := by
          rw [hstep_eq, hstepv]
          intro k
          rw [lookupA_snoc, hanc_cons]
          by_cases h1 : (lookupA m₁ k).isSome
          · rw [if_pos h1]
            constructor
            · intro _
              rcases (hK k).mp h1 with h | h
              · exact Or.inl h
              · exact Or.inr (List.mem_append_left _ h)
            · intro _
              exact h1
          · rw [if_neg h1]
            by_cases h2 : k = anc
            · rw [if_pos h2]
              constructor
              · intro _
                exact Or.inr (List.mem_append_right _ (by simp [h2]))
              · intro _
                rfl
            · rw [if_neg h2]
              constructor
              · intro hfalse
                exact absurd hfalse (by simp)
              · intro hmem
                rcases hmem with h | h
                · exact absurd ((hK k).mpr (Or.inl h)) h1
                · rcases List.mem_append.mp h with h | h
                  · exact absurd ((hK k).mpr (Or.inr h)) h1
                  · exact absurd (by simpa using h) h2
        have hD' : DrawsOK reps cap
            ((pref ++ [DemoEvent.split tt d1 d2 anc]).foldl
              (divTimeStep reps u divPriors) (initDraws reps pops events)) := by
          rw [hstep_eq, hstepv]
          intro k l hl
          rw [lookupA_snoc] at hl
          by_cases h1 : (lookupA m₁ k).isSome
          · rw [if_pos h1] at hl
            exact hD k l hl
          · rw [if_neg h1] at hl
            by_cases h2 : k = anc
            · rw [if_pos h2] at hl
              subst h2
              rw [← Option.some.inj hl]
              exact ⟨hvlen, hvbounds⟩
            · rw [if_neg h2] at hl
              exact absurd hl (by simp)
        have hdep' : depClosedB pops events
            (ancNames (pref ++ [DemoEvent.split tt d1 d2 anc])) rest₂ = true := by
          rw [hanc_cons]
          exact hdep_tail
        exact ih (pref ++ [DemoEvent.split tt d1 d2 anc]) rest' hsplit' hdep' hK' hD'
      rw [show pref ++ DemoEvent.split tt d1 d2 anc :: rest₂ =
        (pref ++ [DemoEvent.split tt d1 d2 anc]) ++ rest₂ from by simp]
      by_cases ht : tt = 0
      · -- pinned-to-zero branch
        refine hcont (List.replicate reps 0) (List.length_replicate ..)
          (fun i => ⟨by rw [getD_replicate_zero], by
            rw [getD_replicate_zero]; exact hcap anc⟩) ?_
        show (if tt ≠ 0 then _ else updateA m₁ anc (List.replicate reps 0)) = _
        rw [if_neg (by simpa using ht), updateA_fresh _ _ _ hfresh]
      · -- sampled branch
        rw [Bool.or_eq_true, Bool.and_eq_true] at hdep_head
        rcases hdep_head with hzero | ⟨hd1, hd2⟩
        · exact absurd (of_decide_eq_true hzero) ht
        · have hd1' : d1 ∈ nonAncNames pops events ∨ d1 ∈ ancNames pref :=
            of_decide_eq_true hd1
          have hd2' : d2 ∈ nonAncNames pops events ∨ d2 ∈ ancNames pref :=
            of_decide_eq_true hd2
          obtain ⟨l1, hl1⟩ := Option.isSome_iff_exists.mp ((hK d1).mpr hd1')
          obtain ⟨l2, hl2⟩ := Option.isSome_iff_exists.mp ((hK d2).mpr hd2')
          obtain ⟨hl1len, hl1b⟩ := hD d1 l1 hl1
          obtain ⟨hl2len, hl2b⟩ := hD d2 l2 hl2
          have hev' := hev _ he_mem ht
          obtain ⟨hlohi, hc1, hc2, hhicap⟩ := hev'
          obtain ⟨hdlen, hdval⟩ := draws_spec reps (u anc) (divPriors anc).1
            (divPriors anc).2 l1 l2 hl1len hl2len
          refine hcont _ hdlen ?_ ?_
          · intro i
            by_cases hi' : i < reps
            · rw [hdval i hi']
              have hm_lo : (0 : ℤ) ≤ max (l1.getD i 0) (max (l2.getD i 0) (divPriors anc).1) :=
                le_trans (hl1b i).1 (le_max_left _ _)
              have hm_hi : max (l1.getD i 0) (max (l2.getD i 0) (divPriors anc).1) ≤
                  (divPriors anc).2 :=
                max_le (le_trans (hl1b i).2 hc1)
                  (max_le (le_trans (hl2b i).2 hc2) hlohi)
              have hu0 := (hu anc i).1
              have hu1 := (hu anc i).2
              have hvlo : ((max (l1.getD i 0) (max (l2.getD i 0) (divPriors anc).1) : ℤ) : ℚ) ≤
                  uniformDraw _ ((divPriors anc).2 : ℚ) (u anc i) :=
                le_uniformDraw hu0 (by exact_mod_cast hm_hi)
              have hvhi : uniformDraw ((max (l1.getD i 0) (max (l2.getD i 0) (divPriors anc).1) : ℤ) : ℚ)
                  ((divPriors anc).2 : ℚ) (u anc i) ≤ ((divPriors anc).2 : ℚ) :=
                uniformDraw_le hu1 (by exact_mod_cast hm_hi)
              constructor
              · apply le_npRound
                calc ((0 : ℤ) : ℚ) ≤ ((max (l1.getD i 0) (max (l2.getD i 0) (divPriors anc).1) : ℤ) : ℚ) := by
                      exact_mod_cast hm_lo
                  _ ≤ _ := hvlo
              · exact le_trans (npRound_le hvhi) hhicap
            · rw [List.getD_eq_default _ _ (by omega)]
              exact ⟨le_refl 0, hcap anc⟩
          · show (if tt ≠ 0 then _ else updateA m₁ anc (List.replicate reps 0)) = _
            rw [if_pos ht, hl1, hl2]
            show updateA m₁ anc _ = _
            rw [updateA_fresh _ _ _ hfresh]
            rfl
/-- C5: under well-nested priors (witnessed by a cap function), unit draws
in `[0,1)`, distinct dictionary keys and dependency-closed events — all of
which hold for the builder's demographies — every non-zero-time split's
sampled divergence times are, replicate by replicate, at least the sampled
times of both derived populations and at most the upper bound of the
ancestral population's prior. -/
theorem c5_divergence_dependency_invariant (reps : ℕ) (u : String → ℕ → ℚ)
    (divPriors : String → ℤ × ℤ) (cap : String → ℤ) (pops : List String)
    (events : List DemoEvent)
    (hu : ∀ a r, 0 ≤ u a r ∧ u a r < 1) (hcap : ∀ n, 0 ≤ cap n)
    (hkeys : (nonAncNames pops events ++ ancNames events).Nodup)
    (hev : ∀ e ∈ events, EvOK divPriors cap e)
    (hdc : depClosedB pops events [] events = true)
    (l₁ l₂ : List DemoEvent) (t : WithTop ℚ) (d1 d2 anc : String)
    (hsplit : events = l₁ ++ DemoEvent.split t d1 d2 anc :: l₂) (ht : t ≠ 0) :
    ∃ la lb lc : List ℤ,
      lookupA (drawDivergenceTimes reps u divPriors pops events) anc = some la ∧
      lookupA (drawDivergenceTimes reps u divPriors pops events) d1 = some lb ∧
      lookupA (drawDivergenceTimes reps u divPriors pops events) d2 = some lc ∧
      ∀ i, i < reps →
        lb.getD i 0 ≤ la.getD i 0 ∧ lc.getD i 0 ≤ la.getD i 0 ∧
        la.getD i 0 ≤ (divPriors anc).2 := by
  -- invariants after the prefix l₁
  have hdc' : depClosedB pops events []
      (l₁ ++ DemoEvent.split t d1 d2 anc :: l₂) = true := by
    rw [← hsplit]
    exact hdc
  have hpre : depClosedB pops events [] l₁ = true :=
    depClosedB_prefix pops events l₁ _ [] hdc'
  obtain ⟨hK0, hD0⟩ := initDraws_inv reps cap pops events hcap
  have hgo := drawDiv_go reps u divPriors cap pops events hu hcap hkeys hev
    l₁ [] (DemoEvent.split t d1 d2 anc :: l₂) (by simpa using hsplit)
    (by simpa [ancNames] using hpre) (by simpa using hK0) (by simpa using hD0)
  rw [List.nil_append] at hgo
  obtain ⟨hK, hD⟩ := hgo
  set m₁ := l₁.foldl (divTimeStep reps u divPriors) (initDraws reps pops events)
    with hm₁
  -- head of the dependency check at the split
  have hdep_head' : depClosedB pops events (ancNames l₁)
      (DemoEvent.split t d1 d2 anc :: l₂) = true := by
    simpa using depClosedB_suffix pops events l₁ _ [] hdc'
  unfold depClosedB at hdep_head'
  rw [Bool.and_eq_true] at hdep_head'
  obtain ⟨hdep_head, _⟩ := hdep_head'
  rw [Bool.or_eq_true, Bool.and_eq_true] at hdep_head
  have hdd : (d1 ∈ nonAncNames pops events ∨ d1 ∈ ancNames l₁) ∧
      (d2 ∈ nonAncNames pops events ∨ d2 ∈ ancNames l₁) := by
    rcases hdep_head with hzero | ⟨hd1, hd2⟩
    · exact absurd (of_decide_eq_true hzero) ht
    · exact ⟨of_decide_eq_true hd1, of_decide_eq_true hd2⟩
  obtain ⟨hd1', hd2'⟩ := hdd
  -- structure of the ancestral-name list and freshness facts
  have hnd2 : (ancNames events).Nodup := (List.nodup_append.mp hkeys).2.1
  have hanc_struct : ancNames events = ancNames l₁ ++ anc :: ancNames l₂ := by
    rw [hsplit, ancNames_append, ancNames_split_cons]
  have hanc_pref : anc ∉ ancNames l₁ := by
    rw [hanc_struct] at hnd2
    exact fun hmem => (List.nodup_append.mp hnd2).2.2 hmem (List.mem_cons_self ..)
  have hanc_nonanc : anc ∉ nonAncNames pops events := by
    intro hmem
    refine (List.nodup_append.mp hkeys).2.2 hmem ?_
    rw [hanc_struct]
    exact List.mem_append_right _ (List.mem_cons_self ..)
  have hanc_l₂ : anc ∉ ancNames l₂ := by
    rw [hanc_struct] at hnd2
    exact (List.nodup_cons.mp (List.nodup_append.mp hnd2).2.1).1
  have hnotin_l₂ : ∀ x : String,
      (x ∈ nonAncNames pops events ∨ x ∈ ancNames l₁) → x ∉ ancNames l₂ := by
    intro x hx hmem
    rcases hx with hx | hx
    · refine (List.nodup_append.mp hkeys).2.2 hx ?_
      rw [hanc_struct]
      exact List.mem_append_right _ (List.mem_cons_of_mem _ hmem)
    · rw [hanc_struct] at hnd2
      exact (List.nodup_append.mp hnd2).2.2 hx (List.mem_cons_of_mem _ hmem)
  have hd1_ne : d1 ≠ anc := by
    intro heq
    rcases hd1' with hx | hx
    · exact hanc_nonanc (heq ▸ hx)
    · exact hanc_pref (heq ▸ hx)
  have hd2_ne : d2 ≠ anc := by
    intro heq
    rcases hd2' with hx | hx
    · exact hanc_nonanc (heq ▸ hx)
    · exact hanc_pref (heq ▸ hx)
  have hfresh : lookupA m₁ anc = none := by
    rcases hl : lookupA m₁ anc with _ | v
    · rfl
    · rcases (hK anc).mp (by rw [hl]; rfl) with h | h
      · exact absurd h hanc_nonanc
      · exact absurd h hanc_pref
  -- the lookups of the derived populations
  obtain ⟨l1, hl1⟩ := Option.isSome_iff_exists.mp ((hK d1).mpr hd1')
  obtain ⟨l2, hl2⟩ := Option.isSome_iff_exists.mp ((hK d2).mpr hd2')
  obtain ⟨hl1len, hl1b⟩ := hD d1 l1 hl1
  obtain ⟨hl2len, hl2b⟩ := hD d2 l2 hl2
  have he_mem : DemoEvent.split t d1 d2 anc ∈ events := by
    rw [hsplit]
    exact List.mem_append_right _ (List.mem_cons_self ..)
  obtain ⟨hlohi, hc1, hc2, _⟩ := hev _ he_mem ht
  obtain ⟨hdlen, hdval⟩ := draws_spec reps (u anc) (divPriors anc).1
    (divPriors anc).2 l1 l2 hl1len hl2len
  -- the step at the split event
  have hstepv : divTimeStep reps u divPriors m₁ (DemoEvent.split t d1 d2 anc) =
      m₁ ++ [(anc,
        List.zipWith (fun (m : ℤ) (i : ℕ) =>
            npRound (uniformDraw (m : ℚ) ((divPriors anc).2 : ℚ) (u anc i)))
          ((List.zipWith (fun a b => max a (max b (divPriors anc).1)) l1 l2).take reps)
          (List.range reps))] := by
    show (if t ≠ 0 then _ else updateA m₁ anc (List.replicate reps 0)) = _
    rw [if_pos ht, hl1, hl2]
    show updateA m₁ anc _ = _
    rw [updateA_fresh _ _ _ hfresh]
    rfl
  -- the final dictionary
  have hfinal : drawDivergenceTimes reps u divPriors pops events =
      l₂.foldl (divTimeStep reps u divPriors)
        (divTimeStep reps u divPriors m₁ (DemoEvent.split t d1 d2 anc)) := by
    unfold drawDivergenceTimes
    have h1 : events.foldl (divTimeStep reps u divPriors) (initDraws reps pops events) =
        (l₁ ++ DemoEvent.split t d1 d2 anc :: l₂).foldl (divTimeStep reps u divPriors)
          (initDraws reps pops events) :=
      congrArg (fun l : List DemoEvent =>
        l.foldl (divTimeStep reps u divPriors) (initDraws reps pops events)) hsplit
    rw [h1, show l₁ ++ DemoEvent.split t d1 d2 anc :: l₂ =
      (l₁ ++ [DemoEvent.split t d1 d2 anc]) ++ l₂ from by simp,
      List.foldl_append, List.foldl_append, List.foldl_cons, List.foldl_nil]
  set draws := List.zipWith (fun (m : ℤ) (i : ℕ) =>
      npRound (uniformDraw (m : ℚ) ((divPriors anc).2 : ℚ) (u anc i)))
    ((List.zipWith (fun a b => max a (max b (divPriors anc).1)) l1 l2).take reps)
    (List.range reps) with hdraws
  refine ⟨draws, l1, l2, ?_, ?_, ?_, ?_⟩
  · rw [hfinal, lookup_fold_stable reps u divPriors anc l₂ _ hanc_l₂, hstepv,
      lookupA_snoc]
    rw [hfresh]
    simp
  · rw [hfinal, lookup_fold_stable reps u divPriors d1 l₂ _ (hnotin_l₂ d1 hd1'), hstepv,
      lookupA_snoc, hl1]
    rfl
  · rw [hfinal, lookup_fold_stable reps u divPriors d2 l₂ _ (hnotin_l₂ d2 hd2'), hstepv,
      lookupA_snoc, hl2]
    rfl
  · intro i hi'
    rw [hdval i hi']
    have hm_hi : max (l1.getD i 0) (max (l2.getD i 0) (divPriors anc).1) ≤
        (divPriors anc).2 :=
      max_le (le_trans (hl1b i).2 hc1) (max_le (le_trans (hl2b i).2 hc2) hlohi)
    have hu0 := (hu anc i).1
    have hu1 := (hu anc i).2
    have hvlo : ((max (l1.getD i 0) (max (l2.getD i 0) (divPriors anc).1) : ℤ) : ℚ) ≤
        uniformDraw _ ((divPriors anc).2 : ℚ) (u anc i) :=
      le_uniformDraw hu0 (by exact_mod_cast hm_hi)
    have hvhi : uniformDraw ((max (l1.getD i 0) (max (l2.getD i 0) (divPriors anc).1) : ℤ) : ℚ)
        ((divPriors anc).2 : ℚ) (u anc i) ≤ ((divPriors anc).2 : ℚ) :=
      uniformDraw_le hu1 (by exact_mod_cast hm_hi)
    refine ⟨?_, ?_, npRound_le hvhi⟩
    · apply le_npRound
      calc ((l1.getD i 0 : ℤ) : ℚ) ≤
            ((max (l1.getD i 0) (max (l2.getD i 0) (divPriors anc).1) : ℤ) : ℚ) := by
            exact_mod_cast le_max_left _ _
        _ ≤ _ := hvlo
    · apply le_npRound
      calc ((l2.getD i 0 : ℤ) : ℚ) ≤
            ((max (l1.getD i 0) (max (l2.getD i 0) (divPriors anc).1) : ℤ) : ℚ) := by
            exact_mod_cast le_trans (le_max_left _ _) (le_max_right _ _)
        _ ≤ _ := hvlo

/-- C5 witness: the three-leaf full topology, one replicate: the root
event `R` (derived `X` and `C`) satisfies the dependency invariant. -/
theorem c5_witness :
    ∃ la lb lc : List ℤ,
      lookupA (drawDivergenceTimes 1 uDiv3 divPriors3
        (fullModel3.populations.map (·.name)) fullModel3.events) "R" = some la ∧
      lookupA (drawDivergenceTimes 1 uDiv3 divPriors3
        (fullModel3.populations.map (·.name)) fullModel3.events) "X" = some lb ∧
      lookupA (drawDivergenceTimes 1 uDiv3 divPriors3
        (fullModel3.populations.map (·.name)) fullModel3.events) "C" = some lc ∧
      ∀ i, i < 1 →
        lb.getD i 0 ≤ la.getD i 0 ∧ lc.getD i 0 ≤ la.getD i 0 ∧
        la.getD i 0 ≤ (divPriors3 "R").2 :=
  c5_divergence_dependency_invariant 1 uDiv3 divPriors3 cap3
    (fullModel3.populations.map (·.name)) fullModel3.events
    (by
      intro a r
      constructor <;> (unfold uDiv3; split <;> norm_num))
    (by
      intro n
      unfold cap3
      split
      · norm_num
      · split <;> norm_num)
    (by decide) (by with_unfolding_all decide) (by with_unfolding_all decide)
    [DemoEvent.split 1000 "A" "B" "X"] [] 1000 "X" "C" "R"
    (by decide) (by decide)

end Delimitpy
